import Mathlib

/-!
Verification of the core of the PRY3-LM Prolog interpreter
(term model, unification with trail, clause indexing, SLD resolution,
arithmetic evaluation, builtin registry) against its specification.

The Python source is shallowly embedded: mutable state (the binding
environment `Env`, the `Trail`) is passed explicitly; Python recursion that
can diverge (dereferencing through possibly-cyclic environments, the SLD
search) is modelled with an explicit fuel parameter, `none` standing for a
computation that did not finish within the fuel.  Python numbers
(`int | float`) are modelled by `ℚ`; the transcendental floating-point
functions of the arithmetic evaluator are abstracted as an uninterpreted
`FloatOps` structure, since only their error guards (which are exact
comparisons in the source) matter to the stated properties.
-/

namespace PrologCore

/-- Python `core/types.py`: the `Term` sum type.  `Atom(name)`,
`Number(value)` (int or float, modelled by `ℚ`), `Variable(name, id)`,
`Compound(functor, args)`. -/
inductive Term : Type where
  | atom (name : String)
  | num (value : ℚ)
  | var (name : String) (id : Nat)
  | comp (functor : String) (args : List Term)

/-- `core/types.py` `Env`: a Python dict from variable id to term, modelled
as an association list with distinct keys kept in insertion order. -/
structure Env : Type where
  bindings : List (Nat × Term)

/-- `Env.get`: `self.bindings.get(v.id)`. -/
def envGet (env : Env) (i : Nat) : Option Term :=
  match env.bindings.find? (fun p => p.1 == i) with
  | some p => some p.2
  | none => none

/-- Python dict assignment `self.bindings[v.id] = t`: replace in place if the
key is present (dicts keep the key's original position), else append. -/
def setPairs (l : List (Nat × Term)) (i : Nat) (t : Term) : List (Nat × Term) :=
  match l with
  | [] => [(i, t)]
  | (j, u) :: rest => if j = i then (j, t) :: rest else (j, u) :: setPairs rest i t

/-- `Env.set`. -/
def envSet (env : Env) (i : Nat) (t : Term) : Env :=
  ⟨setPairs env.bindings i t⟩

/-- Python `del env.bindings[vid]`. -/
def delPairs (l : List (Nat × Term)) (i : Nat) : List (Nat × Term) :=
  match l with
  | [] => []
  | (j, u) :: rest => if j = i then rest else (j, u) :: delPairs rest i

/-- Deletion used by `Trail.unwind`. -/
def envDel (env : Env) (i : Nat) : Env :=
  ⟨delPairs env.bindings i⟩

/-- Python dict equality (`==`) compares the id→term mapping, ignoring
insertion order. -/
def envEquiv (e1 e2 : Env) : Prop :=
  ∀ i, envGet e1 i = envGet e2 i

/-- `solver/unify.py` `Trail`: a LIFO stack of variable ids.  The head of
`stack` is the most recently pushed id (the end of the Python list). -/
structure Trail : Type where
  stack : List Nat

/-- `Trail.push(var)`: records `var.id`. -/
def trailPush (tr : Trail) (i : Nat) : Trail :=
  ⟨i :: tr.stack⟩

/-- The popping loop of `Trail.unwind(env)`: delete each popped id from the
environment if present (`envDel` is a no-op on absent keys, matching the
guarded `del`). -/
def unwindList (st : List Nat) (env : Env) : Env :=
  match st with
  | [] => env
  | i :: rest => unwindList rest (envDel env i)

/-- `Trail.unwind(env)`. -/
def unwind (tr : Trail) (env : Env) : Env :=
  unwindList tr.stack env

/-- `solver/unify.py` `deref`: follow variable bindings until an unbound
variable or a non-variable is reached.  Fuel bounds the chain length; a
cyclic chain exhausts it and yields `none` (the Python loop would spin). -/
def deref (fuel : Nat) (t : Term) (env : Env) : Option Term :=
  match t with
  | .var n i =>
    match envGet env i with
    | none => some (.var n i)
    | some u =>
      match fuel with
      | 0 => none
      | f + 1 => deref f u env
  | t => some t

/-- `solver/unify.py` `bind`: push the variable's id on the trail, then add
the binding to the environment. -/
def bind (vid : Nat) (value : Term) (env : Env) (tr : Trail) : Env × Trail :=
  (envSet env vid value, trailPush tr vid)

mutual

/-- `solver/unify.py` `occurs_in(v, t, env)`: dereference `t`; a variable is
compared by id, a compound is searched argument by argument. -/
def occursIn (fuel : Nat) (v : Nat) (t : Term) (env : Env) : Option Bool :=
  match fuel with
  | 0 => none
  | f + 1 =>
    match deref f t env with
    | none => none
    | some (.var _ j) => some (v == j)
    | some (.comp _ args) => occursAny f v args env
    | some _ => some false

/-- Python `any(occurs_in(v, a, env) for a in t.args)` (short-circuiting). -/
def occursAny (fuel : Nat) (v : Nat) (args : List Term) (env : Env) : Option Bool :=
  match args with
  | [] => some false
  | a :: rest =>
    match fuel with
    | 0 => none
    | f + 1 =>
      match occursIn f v a env with
      | none => none
      | some true => some true
      | some false => occursAny f v rest env

end

/-- The `Var ↔ anything` branch of `unify`: fail if the occurs-check is on
and triggers, otherwise `bind` and succeed. -/
def bindCheck (fuel : Nat) (oc : Bool) (v : Nat) (t : Term) (env : Env) (tr : Trail) :
    Option (Bool × Env × Trail) :=
  if oc then
    match occursIn fuel v t env with
    | none => none
    | some true => some (false, env, tr)
    | some false =>
      let (env', tr') := bind v t env tr
      some (true, env', tr')
  else
    let (env', tr') := bind v t env tr
    some (true, env', tr')

mutual

/-- `solver/unify.py` `unify(t1, t2, env, trail, occurs_check)`.  Returns the
Python boolean together with the (mutated) environment and trail; `none` is
a computation that exhausted its fuel (a diverging dereference). -/
def unify (fuel : Nat) (t1 t2 : Term) (env : Env) (tr : Trail) (oc : Bool) :
    Option (Bool × Env × Trail) :=
  match fuel with
  | 0 => none
  | f + 1 =>
    match deref f t1 env, deref f t2 env with
    | some d1, some d2 =>
      match d1 with
      | .var _n1 i1 =>
        match d2 with
        | .var n2 i2 =>
          if i1 = i2 then some (true, env, tr)
          else bindCheck f oc i1 (.var n2 i2) env tr
        | d2 => bindCheck f oc i1 d2 env tr
      | d1 =>
        match d2 with
        | .var _ i2 => bindCheck f oc i2 d1 env tr
        | d2 =>
          match d1, d2 with
          | .atom a1, .atom a2 => some (a1 == a2, env, tr)
          | .num v1, .num v2 => some (v1 == v2, env, tr)
          | .comp g1 as1, .comp g2 as2 =>
            if g1 = g2 ∧ as1.length = as2.length then
              unifyList f as1 as2 env tr oc
            else some (false, env, tr)
          | _, _ => some (false, env, tr)
    | _, _ => none

/-- The `for a, b in zip(...)` loop of `unify`: unify argument pairs left to
right, threading the environment and trail, stopping at the first failure. -/
def unifyList (fuel : Nat) (as1 as2 : List Term) (env : Env) (tr : Trail) (oc : Bool) :
    Option (Bool × Env × Trail) :=
  match as1, as2 with
  | a :: rest1, b :: rest2 =>
    match fuel with
    | 0 => none
    | f + 1 =>
      match unify f a b env tr oc with
      | none => none
      | some (false, env', tr') => some (false, env', tr')
      | some (true, env', tr') => unifyList f rest1 rest2 env' tr' oc
  | _, _ => some (true, env, tr)

end

/-- The body of `unify` after both dereferences (a verbatim restatement of
the inner match of `unify`, factored out so case analyses reduce; the
equation `unify_succ` below links the two). -/
def unifyStep (f : Nat) (d1 d2 : Term) (env : Env) (tr : Trail) (oc : Bool) :
    Option (Bool × Env × Trail) :=
  match d1 with
  | .var _n1 i1 =>
    match d2 with
    | .var n2 i2 =>
      if i1 = i2 then some (true, env, tr)
      else bindCheck f oc i1 (.var n2 i2) env tr
    | d2 => bindCheck f oc i1 d2 env tr
  | d1 =>
    match d2 with
    | .var _ i2 => bindCheck f oc i2 d1 env tr
    | d2 =>
      match d1, d2 with
      | .atom a1, .atom a2 => some (a1 == a2, env, tr)
      | .num v1, .num v2 => some (v1 == v2, env, tr)
      | .comp g1 as1, .comp g2 as2 =>
        if g1 = g2 ∧ as1.length = as2.length then
          unifyList f as1 as2 env tr oc
        else some (false, env, tr)
      | _, _ => some (false, env, tr)

mutual

/-- `solver/unify.py` `apply(env, term)`: fully substituted copy of a term. -/
def applyT (fuel : Nat) (env : Env) (t : Term) : Option Term :=
  match fuel with
  | 0 => none
  | f + 1 =>
    match deref f t env with
    | none => none
    | some (.comp g args) =>
      match applyList f env args with
      | none => none
      | some args' => some (.comp g args')
    | some u => some u

/-- Argument-wise `apply` (the tuple comprehension in `apply`). -/
def applyList (fuel : Nat) (env : Env) (args : List Term) : Option (List Term) :=
  match args with
  | [] => some []
  | a :: rest =>
    match fuel with
    | 0 => none
    | f + 1 =>
      match applyT f env a with
      | none => none
      | some a' =>
        match applyList f env rest with
        | none => none
        | some rest' => some (a' :: rest')

end

/-! ## Clause store and first-argument index (`solver/indexer.py`) -/

/-- `core/types.py` `Clause`: an immutable pair of a `Compound` head and a
tuple of body goals.  The head's `Compound` structure is embedded directly
as `functor` and `hargs` (the Python type annotation fixes `head: Compound`). -/
structure Clause : Type where
  functor : String
  hargs : List Term
  body : List Term

/-- The head `Compound` term of a clause. -/
def Clause.head (c : Clause) : Term :=
  .comp c.functor c.hargs

/-- First-argument index keys, pairs of strings as in `_first_arg_key`. -/
abbrev IdxKey := String × String

/-- `solver/indexer.py` `_first_arg_key` applied to a head (or goal) with the
given argument list: atom first argument gives a concrete key, compound
gives the single compound bucket, anything else (number, variable, no
arguments) gives the wildcard key. -/
def firstArgKey (args : List Term) : IdxKey :=
  match args with
  | a0 :: _ =>
    match a0 with
    | .comp _ _ => (".", "_")
    | .atom n => ("a", n)
    | _ => ("*", "_")
  | [] => ("*", "_")

/-- `Index.by_key`: a `defaultdict(list)`, modelled as an association list in
key-insertion order (Python dicts preserve insertion order). -/
structure Index : Type where
  by_key : List (IdxKey × List Clause)

/-- Lookup in `by_key` (`dict.get`). -/
def dictGet (l : List (IdxKey × List Clause)) (k : IdxKey) : Option (List Clause) :=
  match l.find? (fun p => p.1 == k) with
  | some p => some p.2
  | none => none

/-- `defaultdict` append: `self.by_key[k].append(clause)` — append to the
existing bucket, or create the bucket at the end of the dict. -/
def appendBucket (l : List (IdxKey × List Clause)) (k : IdxKey) (c : Clause) :
    List (IdxKey × List Clause) :=
  match l with
  | [] => [(k, [c])]
  | (k', cs) :: rest =>
    if k' = k then (k', cs ++ [c]) :: rest else (k', cs) :: appendBucket rest k c

/-- `Index.add`. -/
def idxAdd (idx : Index) (c : Clause) : Index :=
  ⟨appendBucket idx.by_key (firstArgKey c.hargs) c⟩

/-- `Index.candidates(head)` for a goal with the given arguments: a wildcard
goal key yields every bucket in key-insertion order; otherwise the concrete
bucket followed by the wildcard bucket. -/
def idxCandidates (idx : Index) (goalArgs : List Term) : List Clause :=
  let k := firstArgKey goalArgs
  if k = ("*", "_") then
    (idx.by_key.map (fun p => p.2)).flatten
  else
    (dictGet idx.by_key k).getD [] ++ (dictGet idx.by_key ("*", "_")).getD []

/-- Predicate keys `(functor, arity)`. -/
abbrev PredKey := String × Nat

/-- `solver/indexer.py` `KnowledgeBase`: predicate-keyed clause lists plus a
per-predicate first-argument index, both as insertion-ordered dicts. -/
structure KnowledgeBase : Type where
  clauses : List (PredKey × List Clause)
  indices : List (PredKey × Index)

/-- The empty knowledge base (a fresh `KnowledgeBase()`). -/
def emptyKB : KnowledgeBase := ⟨[], []⟩

/-- `defaultdict` append for the clause buckets. -/
def appendPred (l : List (PredKey × List Clause)) (k : PredKey) (c : Clause) :
    List (PredKey × List Clause) :=
  match l with
  | [] => [(k, [c])]
  | (k', cs) :: rest =>
    if k' = k then (k', cs ++ [c]) :: rest else (k', cs) :: appendPred rest k c

/-- `if key not in self.indices: self.indices[key] = Index()` followed by
`self.indices[key].add(clause)`. -/
def addToIndices (l : List (PredKey × Index)) (k : PredKey) (c : Clause) :
    List (PredKey × Index) :=
  match l with
  | [] => [(k, idxAdd ⟨[]⟩ c)]
  | (k', idx) :: rest =>
    if k' = k then (k', idxAdd idx c) :: rest else (k', idx) :: addToIndices rest k c

/-- `KnowledgeBase.add_clause`. -/
def kbAdd (kb : KnowledgeBase) (c : Clause) : KnowledgeBase :=
  let key : PredKey := (c.functor, c.hargs.length)
  ⟨appendPred kb.clauses key c, addToIndices kb.indices key c⟩

/-- `Engine.load`: append clauses in order. -/
def kbLoad (cs : List Clause) : KnowledgeBase :=
  cs.foldl kbAdd emptyKB

/-- `KnowledgeBase.get_candidates(goal)`: no index for the predicate key
means no candidates; otherwise ask the index. -/
def kbCandidates (kb : KnowledgeBase) (g : String) (args : List Term) : List Clause :=
  match kb.indices.find? (fun p => p.1 == (g, args.length)) with
  | none => []
  | some p => idxCandidates p.2 args

/-! ## Builtin registry and core builtins
(`prolog_builtins/registry.py`, `builtins/core.py`; the spec treats the
`builtins` and `prolog_builtins` packages as one logical module) -/

/-- The shape of a builtin implementation: argument terms, the engine's
occurs-check flag (the only engine field builtins read), fuel, environment
and trail, producing the finite list of yielded `(env, trail)` states. -/
def BuiltinImpl : Type :=
  List Term → Bool → Nat → Env → Trail → Option (List (Env × Trail))

/-- `BuiltinRegistry`: a dict keyed by `(name, arity)`. -/
structure Registry : Type where
  builtins : List (PredKey × BuiltinImpl)

/-- `BuiltinRegistry.is_builtin(goal)`. -/
def isBuiltin (reg : Registry) (g : String) (arity : Nat) : Bool :=
  (reg.builtins.find? (fun p => p.1 == (g, arity))).isSome

/-- `BuiltinRegistry.call(goal, engine, env, trail)`: an unregistered key
yields nothing; otherwise the implementation runs on the goal's argument
list. -/
def regCall (reg : Registry) (g : String) (args : List Term) (oc : Bool)
    (fuel : Nat) (env : Env) (tr : Trail) : Option (List (Env × Trail)) :=
  match reg.builtins.find? (fun p => p.1 == (g, args.length)) with
  | none => some []
  | some p => p.2 args oc fuel env tr

/-- `builtins/core.py` `true_0`: yields the environment unchanged. -/
def true_0 : BuiltinImpl := fun _ _ _ env tr => some [(env, tr)]

/-- `builtins/core.py` `fail_0`: yields nothing. -/
def fail_0 : BuiltinImpl := fun _ _ _ _ _ => some []

/-- `builtins/core.py` `equal_2`: unify both arguments in the live
environment, yield it on success. -/
def equal_2 : BuiltinImpl := fun args oc fuel env tr =>
  match args with
  | [lhs, rhs] =>
    match unify fuel lhs rhs env tr oc with
    | none => none
    | some (true, env', tr') => some [(env', tr')]
    | some (false, _, _) => some []
  | _ => some []

/-- `builtins/core.py` `not_equal_2`: attempt unification in a throwaway
copy of the environment with a fresh trail; yield the original environment
iff the attempt fails. -/
def not_equal_2 : BuiltinImpl := fun args oc fuel env tr =>
  match args with
  | [lhs, rhs] =>
    match unify fuel lhs rhs env ⟨[]⟩ oc with
    | none => none
    | some (true, _, _) => some []
    | some (false, _, _) => some [(env, tr)]
  | _ => some []

/-- `builtins/core.py` `var_1`. -/
def var_1 : BuiltinImpl := fun args _ fuel env tr =>
  match args with
  | [t] =>
    match deref fuel t env with
    | none => none
    | some (.var _ _) => some [(env, tr)]
    | some _ => some []
  | _ => some []

/-- `builtins/core.py` `nonvar_1`. -/
def nonvar_1 : BuiltinImpl := fun args _ fuel env tr =>
  match args with
  | [t] =>
    match deref fuel t env with
    | none => none
    | some (.var _ _) => some []
    | some _ => some [(env, tr)]
  | _ => some []

/-- `builtins/core.py` `atom_1`. -/
def atom_1 : BuiltinImpl := fun args _ fuel env tr =>
  match args with
  | [t] =>
    match deref fuel t env with
    | none => none
    | some (.atom _) => some [(env, tr)]
    | some _ => some []
  | _ => some []

/-- `builtins/core.py` `number_1`. -/
def number_1 : BuiltinImpl := fun args _ fuel env tr =>
  match args with
  | [t] =>
    match deref fuel t env with
    | none => none
    | some (.num _) => some [(env, tr)]
    | some _ => some []
  | _ => some []

/-- `builtins/core.py` `compound_1`. -/
def compound_1 : BuiltinImpl := fun args _ fuel env tr =>
  match args with
  | [t] =>
    match deref fuel t env with
    | none => none
    | some (.comp _ _) => some [(env, tr)]
    | some _ => some []
  | _ => some []

/-- The registry `main.py` actually builds: `load_core_builtins` only (the
`load_arithmetic_builtins` call is commented out in `initialize_engine`). -/
def coreRegistry : Registry :=
  ⟨[(("true", 0), true_0), (("fail", 0), fail_0),
    (("=", 2), equal_2), (("\\=", 2), not_equal_2),
    (("var", 1), var_1), (("nonvar", 1), nonvar_1),
    (("atom", 1), atom_1), (("number", 1), number_1),
    (("compound", 1), compound_1)]⟩

/-! ## Arithmetic evaluator and builtins (`prolog_builtins/arith.py`)

Numbers are modelled by `ℚ`; the transcendental float functions
(`math.sqrt`, `math.sin`, …, `**`) and the float constants `math.pi`,
`math.e` are abstracted as an uninterpreted `FloatOps` structure.  The
error guards written in the source (`divisor == 0`, `val < 0`, `val <= 0`)
are exact comparisons and are modelled exactly; float domain/overflow
errors arising outside those written guards are not modelled. -/

/-- Uninterpreted values of the floating-point functions used by
`evaluate`. -/
structure FloatOps : Type where
  piF : ℚ
  eF : ℚ
  powF : ℚ → ℚ → ℚ
  sqrtF : ℚ → ℚ
  sinF : ℚ → ℚ
  cosF : ℚ → ℚ
  tanF : ℚ → ℚ
  asinF : ℚ → ℚ
  acosF : ℚ → ℚ
  atanF : ℚ → ℚ
  expF : ℚ → ℚ
  logF : ℚ → ℚ
  log10F : ℚ → ℚ

/-- The exceptions `evaluate` can raise (`ValueError` and
`ZeroDivisionError` variants), all caught by the calling builtins. -/
inductive EvalErr : Type where
  | instantiation (name : String)
  | unknownAtom (name : String)
  | zeroDivision
  | negSqrt
  | nonPosLog
  | unsupported (functor : String) (arity : Nat)
  deriving Repr, DecidableEq

mutual

/-- `prolog_builtins/arith.py` `evaluate(expr, env)`: dereference, then
numbers evaluate to themselves, `pi`/`e` to the float constants, other
atoms and unbound variables raise, compounds dispatch on functor and
arity in source order, anything unmatched raises `unsupported`. -/
def evaluate (F : FloatOps) : Nat → Term → Env → Option (Except EvalErr ℚ)
  | 0, _, _ => none
  | f + 1, expr, env =>
    match deref f expr env with
    | none => none
    | some (.num v) => some (.ok v)
    | some (.var n _) => some (.error (.instantiation n))
    | some (.atom n) =>
      if n = "pi" then some (.ok F.piF)
      else if n = "e" then some (.ok F.eF)
      else some (.error (.unknownAtom n))
    | some (.comp fn args) =>
      match fn, args with
      | "+", [a, b] => evalLR F f a b env (fun x y => .ok (x + y))
      | "-", [a, b] => evalLR F f a b env (fun x y => .ok (x - y))
      | "*", [a, b] => evalLR F f a b env (fun x y => .ok (x * y))
      | "/", [a, b] => evalDiv F f a b env (fun x y => x / y)
      | "//", [a, b] => evalDiv F f a b env (fun x y => ((⌊x / y⌋ : ℤ) : ℚ))
      | "mod", [a, b] => evalDiv F f a b env (fun x y => x - y * ((⌊x / y⌋ : ℤ) : ℚ))
      | "**", [a, b] => evalLR F f a b env (fun x y => .ok (F.powF x y))
      | "^", [a, b] => evalLR F f a b env (fun x y => .ok (F.powF x y))
      | "-", [a] => evalUn F f a env (fun x => .ok (-x))
      | "abs", [a] => evalUn F f a env (fun x => .ok |x|)
      | "floor", [a] => evalUn F f a env (fun x => .ok ((⌊x⌋ : ℤ) : ℚ))
      | "ceil", [a] => evalUn F f a env (fun x => .ok ((⌈x⌉ : ℤ) : ℚ))
      | "sqrt", [a] =>
        evalUn F f a env (fun x => if x < 0 then .error .negSqrt else .ok (F.sqrtF x))
      | "sin", [a] => evalUn F f a env (fun x => .ok (F.sinF x))
      | "cos", [a] => evalUn F f a env (fun x => .ok (F.cosF x))
      | "tan", [a] => evalUn F f a env (fun x => .ok (F.tanF x))
      | "asin", [a] => evalUn F f a env (fun x => .ok (F.asinF x))
      | "acos", [a] => evalUn F f a env (fun x => .ok (F.acosF x))
      | "atan", [a] => evalUn F f a env (fun x => .ok (F.atanF x))
      | "exp", [a] => evalUn F f a env (fun x => .ok (F.expF x))
      | "log", [a] =>
        evalUn F f a env (fun x => if x ≤ 0 then .error .nonPosLog else .ok (F.logF x))
      | "ln", [a] =>
        evalUn F f a env (fun x => if x ≤ 0 then .error .nonPosLog else .ok (F.logF x))
      | "log10", [a] =>
        evalUn F f a env (fun x => if x ≤ 0 then .error .nonPosLog else .ok (F.log10F x))
      | fn, args => some (.error (.unsupported fn args.length))

/-- Left-to-right binary evaluation, e.g. `evaluate(args[0]) + evaluate(args[1])`
(Python evaluates the left operand first). -/
def evalLR (F : FloatOps) :
    Nat → Term → Term → Env → (ℚ → ℚ → Except EvalErr ℚ) → Option (Except EvalErr ℚ)
  | 0, _, _, _, _ => none
  | f + 1, a, b, env, k =>
    match evaluate F f a env with
    | none => none
    | some (.error e) => some (.error e)
    | some (.ok x) =>
      match evaluate F f b env with
      | none => none
      | some (.error e) => some (.error e)
      | some (.ok y) => some (k x y)

/-- `/`, `//` and `mod`: Python evaluates the divisor (`args[1]`) first,
raises `ZeroDivisionError` if it is zero, and only then evaluates the
dividend. -/
def evalDiv (F : FloatOps) :
    Nat → Term → Term → Env → (ℚ → ℚ → ℚ) → Option (Except EvalErr ℚ)
  | 0, _, _, _, _ => none
  | f + 1, a, b, env, k =>
    match evaluate F f b env with
    | none => none
    | some (.error e) => some (.error e)
    | some (.ok y) =>
      if y = 0 then some (.error .zeroDivision)
      else
        match evaluate F f a env with
        | none => none
        | some (.error e) => some (.error e)
        | some (.ok x) => some (.ok (k x y))

/-- Unary function evaluation, with the function's own guard applied to the
evaluated argument. -/
def evalUn (F : FloatOps) :
    Nat → Term → Env → (ℚ → Except EvalErr ℚ) → Option (Except EvalErr ℚ)
  | 0, _, _, _ => none
  | f + 1, a, env, k =>
    match evaluate F f a env with
    | none => none
    | some (.error e) => some (.error e)
    | some (.ok x) => some (k x)

end

/-- `prolog_builtins/arith.py` `is_2`: evaluate the right-hand side; any
evaluator exception is caught and the branch fails silently (no state is
yielded); on success the result is unified with the left-hand side. -/
def is_2 (F : FloatOps) : BuiltinImpl := fun args oc fuel env tr =>
  match args with
  | [lhs, rhs] =>
    match evaluate F fuel rhs env with
    | none => none
    | some (.error _) => some []
    | some (.ok v) =>
      match unify fuel lhs (.num v) env tr oc with
      | none => none
      | some (true, env', tr') => some [(env', tr')]
      | some (false, _, _) => some []
  | _ => some []

/-- The shared shape of the six arithmetic comparison builtins: evaluate
both sides (left first), catching evaluator exceptions as silent failure,
and yield the unchanged environment iff the comparison holds. -/
def arithCompare (F : FloatOps) (cmp : ℚ → ℚ → Bool) : BuiltinImpl :=
  fun args _ fuel env tr =>
    match args with
    | [lhs, rhs] =>
      match evaluate F fuel lhs env with
      | none => none
      | some (.error _) => some []
      | some (.ok x) =>
        match evaluate F fuel rhs env with
        | none => none
        | some (.error _) => some []
        | some (.ok y) => if cmp x y then some [(env, tr)] else some []
    | _ => some []

/-- `arithmetic_equal_2` (`=:=/2`). -/
def arithmetic_equal_2 (F : FloatOps) : BuiltinImpl :=
  arithCompare F (fun x y => x == y)

/-- `arithmetic_not_equal_2` (`=\=/2`). -/
def arithmetic_not_equal_2 (F : FloatOps) : BuiltinImpl :=
  arithCompare F (fun x y => x != y)

/-- `less_than_2` (`</2`). -/
def less_than_2 (F : FloatOps) : BuiltinImpl :=
  arithCompare F (fun x y => decide (x < y))

/-- `less_equal_2` (`=</2`). -/
def less_equal_2 (F : FloatOps) : BuiltinImpl :=
  arithCompare F (fun x y => decide (x ≤ y))

/-- `greater_than_2` (`>/2`). -/
def greater_than_2 (F : FloatOps) : BuiltinImpl :=
  arithCompare F (fun x y => decide (x > y))

/-- `greater_equal_2` (`>=/2`). -/
def greater_equal_2 (F : FloatOps) : BuiltinImpl :=
  arithCompare F (fun x y => decide (x ≥ y))

/-! ## The SLD resolver (`solver/engine.py` `Engine._solve` / `query`) -/

mutual

/-- `Engine._solve(goals, env, trail)`.  An empty goal list yields a copy of
the environment (value semantics make the copy implicit); a builtin goal is
dispatched through the registry and the remainder solved against every
yielded state; otherwise each candidate clause from the index is tried in a
cloned environment with a fresh trail.  A non-`Compound` goal would raise
`AttributeError` in Python (`first.functor`), modelled as `none`. -/
def solve (reg : Registry) (oc : Bool) (kb : KnowledgeBase) :
    Nat → List Term → Env → Trail → Option (List Env)
  | 0, _, _, _ => none
  | _ + 1, [], env, _ => some [env]
  | f + 1, first :: rest, env, tr =>
    match first with
    | .comp g args =>
      if isBuiltin reg g args.length then
        match regCall reg g args oc f env tr with
        | none => none
        | some results => solveSeq reg oc kb f results rest
      else
        solveClauses reg oc kb f (kbCandidates kb g args) (.comp g args) rest env
    | _ => none

/-- The builtin loop of `_solve`: `for result_env in GLOBAL_REGISTRY.call(...):
yield from self._solve(rest, result_env, trail)`. -/
def solveSeq (reg : Registry) (oc : Bool) (kb : KnowledgeBase) :
    Nat → List (Env × Trail) → List Term → Option (List Env)
  | _, [], _ => some []
  | 0, _ :: _, _ => none
  | f + 1, (env, tr) :: more, rest =>
    match solve reg oc kb f rest env tr with
    | none => none
    | some sols =>
      match solveSeq reg oc kb f more rest with
      | none => none
      | some sols' => some (sols ++ sols')

/-- The clause loop of `_solve`: clone the environment, take a fresh trail,
unify the goal with the (un-renamed) clause head, and on success resolve
the clause body followed by the remaining goals. -/
def solveClauses (reg : Registry) (oc : Bool) (kb : KnowledgeBase) :
    Nat → List Clause → Term → List Term → Env → Option (List Env)
  | _, [], _, _, _ => some []
  | 0, _ :: _, _, _, _ => none
  | f + 1, c :: cs, goal, rest, env =>
    match unify f goal c.head env ⟨[]⟩ oc with
    | none => none
    | some (false, _, _) => solveClauses reg oc kb f cs goal rest env
    | some (true, env', tr') =>
      match solve reg oc kb f (c.body ++ rest) env' tr' with
      | none => none
      | some sols =>
        match solveClauses reg oc kb f cs goal rest env with
        | none => none
        | some sols' => some (sols ++ sols')

end

/-- `Engine.query(goals)`: fresh environment and trail. -/
def query (reg : Registry) (oc : Bool) (kb : KnowledgeBase) (fuel : Nat)
    (goals : List Term) : Option (List Env) :=
  solve reg oc kb fuel goals ⟨[]⟩ ⟨[]⟩

/-! ## Auxiliary notions used by the stated properties -/

mutual

/-- Python structural equality (`==`) on terms, as generated by the
dataclasses in `core/types.py`: atoms compare by name, numbers by numeric
value, compounds by functor and argument tuple — and variables by **name
only**, because the `id` field of `Variable` is declared with
`field(..., compare=False)`. -/
def pyEq : Term → Term → Bool
  | .atom a, .atom b => a == b
  | .num x, .num y => x == y
  | .var n _, .var m _ => n == m
  | .comp f as, .comp g bs => f == g && pyEqList as bs
  | _, _ => false

/-- Tuple equality of argument lists. -/
def pyEqList : List Term → List Term → Bool
  | [], [] => true
  | a :: as, b :: bs => pyEq a b && pyEqList as bs
  | _, _ => false

end

/-- One step/structure reachability in the binding graph: `Steps env t i`
holds when the dereferencing walk from `t` (following bindings and entering
compound arguments, as `occurs_in` and `apply` do) can reach an occurrence
of the variable with id `i`.  A binding `i ↦ u` with `Steps env u i` is
exactly a self-referential (cyclic) binding. -/
inductive Steps (env : Env) : Term → Nat → Prop where
  | var (n : String) (i : Nat) : Steps env (.var n i) i
  | deref {n : String} {j i : Nat} {u : Term} :
      envGet env j = some u → Steps env u i → Steps env (.var n j) i
  | arg {g : String} {args : List Term} {a : Term} {i : Nat} :
      a ∈ args → Steps env a i → Steps env (.comp g args) i

/-- The occurs-check safety invariant: no binding's value can reach its own
variable. -/
def Acyclic (env : Env) : Prop :=
  ∀ i u, envGet env i = some u → ¬ Steps env u i

/-- `NamedBy nm t`: every variable occurrence in `t` carries the name `nm`
assigns to its id.  In the source ids are globally unique
(`_next_var_id`), so all occurrences of one variable are the same Python
object and share one name; this predicate expresses that discipline. -/
inductive NamedBy (nm : Nat → String) : Term → Prop where
  | atom (a : String) : NamedBy nm (.atom a)
  | num (v : ℚ) : NamedBy nm (.num v)
  | var (i : Nat) : NamedBy nm (.var (nm i) i)
  | comp {g : String} {args : List Term} :
      (∀ a ∈ args, NamedBy nm a) → NamedBy nm (.comp g args)

/-- All values stored in the environment follow the naming discipline. -/
def EnvNamed (nm : Nat → String) (env : Env) : Prop :=
  ∀ i u, envGet env i = some u → NamedBy nm u

/-- `env'` has every binding of `env` (bindings are only added, never
changed, along a `unify` run). -/
def Extends (env env' : Env) : Prop :=
  ∀ i t, envGet env i = some t → envGet env' i = some t

/-- A sequence of `bind` operations, each pushing on the trail
(`solver/unify.py` `bind` applied left to right). -/
def applyBinds (bs : List (Nat × Term)) (env : Env) (tr : Trail) : Env × Trail :=
  match bs with
  | [] => (env, tr)
  | (i, t) :: rest =>
    let (env', tr') := bind i t env tr
    applyBinds rest env' tr'

/-- Every bound variable is unbound in the environment at the moment it is
bound (the discipline `unify` maintains, since it only binds variables
`deref` returned as unbound). -/
def FreshBinds : List (Nat × Term) → Env → Prop
  | [], _ => True
  | (i, t) :: bs, env => envGet env i = none ∧ FreshBinds bs (envSet env i t)

/-- The environment's keys are distinct (always true of a Python dict). -/
def KeysNodup (env : Env) : Prop :=
  (env.bindings.map Prod.fst).Nodup

/-- First-argument keys of a clause list in order of first occurrence — the
key-insertion order of the index's `defaultdict`. -/
def firstOccKeys (cs : List Clause) : List IdxKey :=
  cs.foldl (fun acc c => if firstArgKey c.hargs ∈ acc then acc else acc ++ [firstArgKey c.hargs]) []

/-- Clauses regrouped by first-argument key: keys in first-occurrence
order, insertion order inside each group.  This is the order the index
actually offers for a wildcard goal. -/
def groupedClauses (cs : List Clause) : List Clause :=
  ((firstOccKeys cs).map (fun k => cs.filter (fun c => firstArgKey c.hargs == k))).flatten

/-- A dummy interpretation of the floating-point operations, used to
instantiate universally quantified theorems at concrete inputs. -/
def F0 : FloatOps :=
  ⟨0, 0, fun _ _ => 0, fun _ => 0, fun _ => 0, fun _ => 0, fun _ => 0,
   fun _ => 0, fun _ => 0, fun _ => 0, fun _ => 0, fun _ => 0, fun _ => 0⟩

/-! ## Store-passing model of `_solve` for the copy-independence property

`_solve` mutates Python `Env` dicts in place and yields `env.copy()` for
each solution.  To state that yielded copies are never changed by the
continued search, the same `_solve` is re-expressed with the dict heap made
explicit: a `Store` is the list of all allocated environments (an `Env`
object is its index), `env.copy()` appends a fresh cell, and in-place
mutation is `List.set` at the object's index.  Unification stays the pure
`unify` above; its resulting environment is written back to the mutated
object's cell. -/

/-- The heap of allocated environment objects; an object is its index. -/
abbrev Store := List Env

/-- A builtin over the explicit heap: arguments, occurs-check flag, fuel,
heap, the current environment object, trail; returns the heap after the
call and the yielded `(env object, trail)` states. -/
def BuiltinImplH : Type :=
  List Term → Bool → Nat → Store → Nat → Trail → Option (Store × List (Nat × Trail))

/-- `true_0`: yields the current environment object, no mutation. -/
def true_0H : BuiltinImplH := fun _ _ _ st cur tr => some (st, [(cur, tr)])

/-- `fail_0`: yields nothing. -/
def fail_0H : BuiltinImplH := fun _ _ _ st _ _ => some (st, [])

/-- `equal_2`: unifies in the caller's live environment object, mutating it
in place (also on failure — partial bindings persist), and yields it on
success. -/
def equal_2H : BuiltinImplH := fun args oc fuel st cur tr =>
  match args with
  | [lhs, rhs] =>
    match st[cur]? with
    | none => none
    | some env =>
      match unify fuel lhs rhs env tr oc with
      | none => none
      | some (true, env', tr') => some (st.set cur env', [(cur, tr')])
      | some (false, env', _) => some (st.set cur env', [])
  | _ => some (st, [])

/-- `not_equal_2`: allocates a throwaway copy (`env.copy()`), unifies in it
(the copy ends up holding the unifier's result), and yields the untouched
current object iff the attempt failed. -/
def not_equal_2H : BuiltinImplH := fun args oc fuel st cur tr =>
  match args with
  | [lhs, rhs] =>
    match st[cur]? with
    | none => none
    | some env =>
      match unify fuel lhs rhs env ⟨[]⟩ oc with
      | none => none
      | some (true, tempEnv, _) => some (st ++ [tempEnv], [])
      | some (false, tempEnv, _) => some (st ++ [tempEnv], [(cur, tr)])
  | _ => some (st, [])

/-- The read-only type-test shape shared by `var_1` … `compound_1`. -/
def typeTestH (testVar testAtom testNum testComp : Bool) : BuiltinImplH :=
  fun args _ fuel st cur tr =>
    match args with
    | [t] =>
      match st[cur]? with
      | none => none
      | some env =>
        match deref fuel t env with
        | none => none
        | some (.var _ _) => some (st, if testVar then [(cur, tr)] else [])
        | some (.atom _) => some (st, if testAtom then [(cur, tr)] else [])
        | some (.num _) => some (st, if testNum then [(cur, tr)] else [])
        | some (.comp _ _) => some (st, if testComp then [(cur, tr)] else [])
    | _ => some (st, [])

/-- The registry of `main.py` over the explicit heap (core builtins only). -/
def coreRegistryH : List (PredKey × BuiltinImplH) :=
  [(("true", 0), true_0H), (("fail", 0), fail_0H),
   (("=", 2), equal_2H), (("\\=", 2), not_equal_2H),
   (("var", 1), typeTestH true false false false),
   (("nonvar", 1), typeTestH false true true true),
   (("atom", 1), typeTestH false true false false),
   (("number", 1), typeTestH false false true false),
   (("compound", 1), typeTestH false false false true)]

/-- `is_builtin` over the heap registry. -/
def isBuiltinH (reg : List (PredKey × BuiltinImplH)) (g : String) (arity : Nat) : Bool :=
  (reg.find? (fun p => p.1 == (g, arity))).isSome

/-- `BuiltinRegistry.call` over the heap registry. -/
def regCallH (reg : List (PredKey × BuiltinImplH)) (g : String) (args : List Term)
    (oc : Bool) (fuel : Nat) (st : Store) (cur : Nat) (tr : Trail) :
    Option (Store × List (Nat × Trail)) :=
  match reg.find? (fun p => p.1 == (g, args.length)) with
  | none => some (st, [])
  | some p => p.2 args oc fuel st cur tr

mutual

/-- `Engine._solve` with the heap explicit.  An empty goal list yields
`env.copy()`: a fresh cell holding the current environment's value; the
solution records the new object's index together with the snapshot value it
held when yielded. -/
def solveH (reg : List (PredKey × BuiltinImplH)) (oc : Bool) (kb : KnowledgeBase) :
    Nat → List Term → Nat → Store → Trail → Option (Store × List (Nat × Env))
  | 0, _, _, _, _ => none
  | _ + 1, [], cur, st, _ =>
    match st[cur]? with
    | none => none
    | some env => some (st ++ [env], [(st.length, env)])
  | f + 1, first :: rest, cur, st, tr =>
    match first with
    | .comp g args =>
      if isBuiltinH reg g args.length then
        match regCallH reg g args oc f st cur tr with
        | none => none
        | some (st1, results) => solveSeqH reg oc kb f results rest st1
      else
        solveClausesH reg oc kb f (kbCandidates kb g args) (.comp g args) rest cur st
    | _ => none

/-- The builtin loop of `_solve` over the heap. -/
def solveSeqH (reg : List (PredKey × BuiltinImplH)) (oc : Bool) (kb : KnowledgeBase) :
    Nat → List (Nat × Trail) → List Term → Store → Option (Store × List (Nat × Env))
  | _, [], _, st => some (st, [])
  | 0, _ :: _, _, _ => none
  | f + 1, (ix, tr) :: more, rest, st =>
    match solveH reg oc kb f rest ix st tr with
    | none => none
    | some (st1, sols1) =>
      match solveSeqH reg oc kb f more rest st1 with
      | none => none
      | some (st2, sols2) => some (st2, sols1 ++ sols2)

/-- The clause loop of `_solve` over the heap: `local_env = env.copy()`
allocates a cell, `unify` mutates it (also on failure), and on success the
body is solved against the local object. -/
def solveClausesH (reg : List (PredKey × BuiltinImplH)) (oc : Bool) (kb : KnowledgeBase) :
    Nat → List Clause → Term → List Term → Nat → Store → Option (Store × List (Nat × Env))
  | _, [], _, _, _, st => some (st, [])
  | 0, _ :: _, _, _, _, _ => none
  | f + 1, c :: cs, goal, rest, cur, st =>
    match st[cur]? with
    | none => none
    | some env =>
      match unify f goal c.head env ⟨[]⟩ oc with
      | none => none
      | some (false, env', _) =>
        solveClausesH reg oc kb f cs goal rest cur ((st ++ [env]).set st.length env')
      | some (true, env', tr') =>
        match solveH reg oc kb f (c.body ++ rest) st.length
            ((st ++ [env]).set st.length env') tr' with
        | none => none
        | some (st2, sols1) =>
          match solveClausesH reg oc kb f cs goal rest cur st2 with
          | none => none
          | some (st3, sols2) => some (st3, sols1 ++ sols2)

end

/-- Frame of a search phase: the heap only grows, and among pre-existing
cells only the current environment object may be written. -/
def StoreInv (st st' : Store) (cur : Nat) : Prop :=
  st.length ≤ st'.length ∧ ∀ j, j < st.length → j ≠ cur → st'[j]? = st[j]?

/-- Every yielded solution is a fresh cell whose final heap value is
exactly the snapshot it held when yielded. -/
def SolsInv (st st' : Store) (sols : List (Nat × Env)) : Prop :=
  ∀ p ∈ sols, st.length ≤ p.1 ∧ p.1 < st'.length ∧ st'[p.1]? = some p.2

-- Scenario A sanity check: facts only, no clause is reused within one proof.
example :
    query coreRegistry false
      (kbLoad
        [⟨"parent", [.atom "tom", .atom "bob"], []⟩,
         ⟨"parent", [.atom "bob", .atom "ann"], []⟩,
         ⟨"parent", [.atom "bob", .atom "pat"], []⟩])
      20
      [.comp "parent" [.atom "bob", .var "X" 1]]
      = some [⟨[(1, .atom "ann")]⟩, ⟨[(1, .atom "pat")]⟩] := rfl

example : deref 5 (.var "X" 1) ⟨[(1, .atom "a")]⟩ = some (.atom "a") := rfl

example :
    unify 9 (.comp "f" [.var "X" 1, .atom "b"]) (.comp "f" [.atom "a", .var "Y" 2])
      ⟨[]⟩ ⟨[]⟩ false
      = some (true, ⟨[(1, .atom "a"), (2, .atom "b")]⟩, ⟨[2, 1]⟩) := rfl

example :
    applyT 9 ⟨[(1, .atom "a"), (2, .atom "b")]⟩ (.comp "f" [.var "X" 1, .atom "b"])
      = some (.comp "f" [.atom "a", .atom "b"]) := rfl

example :
    unify 9 (.num 2) (.num 2) ⟨[]⟩ ⟨[]⟩ false = some (true, ⟨[]⟩, ⟨[]⟩) := rfl

example :
    unify 9 (.num 2) (.num 1) ⟨[]⟩ ⟨[]⟩ false = some (false, ⟨[]⟩, ⟨[]⟩) := rfl

/-! ## Association-list environment lemmas -/

theorem find?_setPairs (l : List (Nat × Term)) (i : Nat) (t : Term) (j : Nat) :
    (setPairs l i t).find? (fun p => p.1 == j)
      = if j = i then some (i, t) else l.find? (fun p => p.1 == j) := by
  induction l with
  | nil =>
    by_cases h : j = i
    · simp [setPairs, List.find?, h]
    · have hb : (i == j) = false := beq_eq_false_iff_ne.mpr (fun h' => h h'.symm)
      simp [setPairs, List.find?, hb, h]
  | cons hd tl ih =>
    obtain ⟨p, q⟩ := hd
    by_cases hpi : p = i
    · subst hpi
      by_cases hji : j = p
      · simp [setPairs, List.find?, hji]
      · have hb : (p == j) = false := beq_eq_false_iff_ne.mpr (fun h' => hji h'.symm)
        simp [setPairs, List.find?, hb, hji]
    · by_cases hjp : j = p
      · subst hjp
        have hji : ¬ j = i := fun h' => hpi (h' ▸ rfl)
        simp [setPairs, hpi, List.find?, hji]
      · have hb : (p == j) = false := beq_eq_false_iff_ne.mpr (fun h' => hjp h'.symm)
        simp only [setPairs, if_neg hpi, List.find?, hb]
        exact ih

theorem envGet_envSet (env : Env) (i : Nat) (t : Term) (j : Nat) :
    envGet (envSet env i t) j = if j = i then some t else envGet env j := by
  obtain ⟨l⟩ := env
  simp only [envGet, envSet, find?_setPairs]
  by_cases h : j = i <;> simp [h]

theorem envGet_eq_none_iff (env : Env) (i : Nat) :
    envGet env i = none ↔ ∀ p ∈ env.bindings, p.1 ≠ i := by
  obtain ⟨l⟩ := env
  simp only [envGet]
  constructor
  · intro h p hp
    match hfind : l.find? (fun p => p.1 == i) with
    | some q => rw [hfind] at h; cases h
    | none =>
      have := List.find?_eq_none.mp hfind p hp
      simpa using this
  · intro h
    have : l.find? (fun p => p.1 == i) = none :=
      List.find?_eq_none.mpr (fun p hp => by simpa using h p hp)
    rw [this]

theorem envGet_envDel_ne (env : Env) (i j : Nat) (h : j ≠ i) :
    envGet (envDel env i) j = envGet env j := by
  obtain ⟨l⟩ := env
  simp only [envGet, envDel]
  induction l with
  | nil => simp [delPairs]
  | cons hd tl ih =>
    obtain ⟨p, q⟩ := hd
    by_cases hpi : p = i
    · subst hpi
      have hb : (p == j) = false := beq_eq_false_iff_ne.mpr (fun h' => h h'.symm)
      simp [delPairs, List.find?, hb]
    · by_cases hpj : p = j
      · subst hpj
        simp [delPairs, hpi, List.find?]
      · have hb : (p == j) = false := beq_eq_false_iff_ne.mpr hpj
        simp only [delPairs, if_neg hpi, List.find?, hb]
        exact ih

theorem keys_delPairs_sublist (l : List (Nat × Term)) (i : Nat) :
    ((delPairs l i).map Prod.fst).Sublist (l.map Prod.fst) := by
  induction l with
  | nil => simp [delPairs]
  | cons hd tl ih =>
    obtain ⟨p, q⟩ := hd
    by_cases hpi : p = i
    · simp only [delPairs, if_pos hpi, List.map]
      exact (List.sublist_cons_self _ _)
    · simp only [delPairs, if_neg hpi, List.map]
      exact ih.cons₂ _

theorem keysNodup_envDel (env : Env) (i : Nat) (h : KeysNodup env) :
    KeysNodup (envDel env i) :=
  (keys_delPairs_sublist env.bindings i).nodup h

theorem envGet_envDel_self (env : Env) (i : Nat) (h : KeysNodup env) :
    envGet (envDel env i) i = none := by
  obtain ⟨l⟩ := env
  simp only [envGet, envDel]
  induction l with
  | nil => simp [delPairs]
  | cons hd tl ih =>
    obtain ⟨p, q⟩ := hd
    simp only [KeysNodup, List.map_cons, List.nodup_cons] at h
    by_cases hpi : p = i
    · subst hpi
      have hfind : tl.find? (fun r => r.1 == p) = none := by
        apply List.find?_eq_none.mpr
        intro r hr
        simp only [beq_iff_eq]
        intro hrp
        exact h.1 (hrp ▸ List.mem_map_of_mem Prod.fst hr)
      simp [delPairs, hfind]
    · have hb : (p == i) = false := beq_eq_false_iff_ne.mpr hpi
      simp only [delPairs, if_neg hpi, List.find?, hb]
      exact ih h.2

/-! ## Dereferencing lemmas -/

theorem deref_mono {f f' : Nat} {t : Term} {env : Env} {u : Term}
    (h : deref f t env = some u) (hle : f ≤ f') : deref f' t env = some u := by
  induction f generalizing t f' with
  | zero =>
    match t with
    | .atom a => simpa [deref] using h
    | .num v => simpa [deref] using h
    | .comp g args => simpa [deref] using h
    | .var n i =>
      simp only [deref] at h ⊢
      match hg : envGet env i, h with
      | none, h => simpa using h
      | some b, h => cases h
  | succ f ih =>
    match t with
    | .atom a => simpa [deref] using h
    | .num v => simpa [deref] using h
    | .comp g args => simpa [deref] using h
    | .var n i =>
      simp only [deref] at h ⊢
      match hg : envGet env i, h with
      | none, h => exact h
      | some b, h =>
        match f', hle with
        | f' + 1, hle =>
          exact ih h (Nat.le_of_succ_le_succ hle)

theorem deref_unbound {f : Nat} {t : Term} {env : Env} {n : String} {i : Nat}
    (h : deref f t env = some (.var n i)) : envGet env i = none := by
  induction f generalizing t with
  | zero =>
    match t with
    | .atom a => simp [deref] at h
    | .num v => simp [deref] at h
    | .comp g args => simp [deref] at h
    | .var m j =>
      simp only [deref] at h
      match hg : envGet env j, h with
      | none, h =>
        obtain ⟨h1, h2⟩ : m = n ∧ j = i := by simpa using h
        subst h2
        exact hg
      | some b, h => cases h
  | succ f ih =>
    match t with
    | .atom a => simp [deref] at h
    | .num v => simp [deref] at h
    | .comp g args => simp [deref] at h
    | .var m j =>
      simp only [deref] at h
      match hg : envGet env j, h with
      | none, h =>
        obtain ⟨h1, h2⟩ : m = n ∧ j = i := by simpa using h
        subst h2
        exact hg
      | some b, h => exact ih h

/-! ## Environment extension -/

theorem extends_refl (env : Env) : Extends env env := fun _ _ h => h

theorem extends_trans {e1 e2 e3 : Env} (h1 : Extends e1 e2) (h2 : Extends e2 e3) :
    Extends e1 e3 := fun i t h => h2 i t (h1 i t h)

theorem extends_envSet {env : Env} {i : Nat} (t : Term) (h : envGet env i = none) :
    Extends env (envSet env i t) := by
  intro j u hj
  rw [envGet_envSet]
  split
  · next hji => rw [hji] at hj; rw [hj] at h; cases h
  · exact hj

theorem extends_envGet_none {env env2 : Env} {i : Nat}
    (hx : Extends env env2) (h : envGet env2 i = none) : envGet env i = none := by
  match hg : envGet env i with
  | none => rfl
  | some u => rw [hx i u hg] at h; cases h

/-- Dereferencing is stable under extension: if `t` dereferences to `u` in
`env`, then in any extension the walks from `t` and from `u` reach the same
place. -/
theorem deref_extends {d : Nat} {t u : Term} {env env2 : Env}
    (h : deref d t env = some u) (hx : Extends env env2) :
    ∀ {d2 : Nat} {w : Term}, deref d2 t env2 = some w → deref d2 u env2 = some w := by
  induction d generalizing t with
  | zero =>
    match t with
    | .atom a =>
      simp only [deref, Option.some.injEq] at h
      subst h; intro d2 w h2; exact h2
    | .num v =>
      simp only [deref, Option.some.injEq] at h
      subst h; intro d2 w h2; exact h2
    | .comp g args =>
      simp only [deref, Option.some.injEq] at h
      subst h; intro d2 w h2; exact h2
    | .var n i =>
      simp only [deref] at h
      match hg : envGet env i, h with
      | none, h =>
        replace h : Term.var n i = u := by simpa using h
        subst h; intro d2 w h2; exact h2
      | some b, h => cases h
  | succ d ih =>
    match t with
    | .atom a =>
      simp only [deref, Option.some.injEq] at h
      subst h; intro d2 w h2; exact h2
    | .num v =>
      simp only [deref, Option.some.injEq] at h
      subst h; intro d2 w h2; exact h2
    | .comp g args =>
      simp only [deref, Option.some.injEq] at h
      subst h; intro d2 w h2; exact h2
    | .var n i =>
      simp only [deref] at h
      match hg : envGet env i, h with
      | none, h =>
        replace h : Term.var n i = u := by simpa using h
        subst h; intro d2 w h2; exact h2
      | some b, h =>
        intro d2 w h2
        have hg2 : envGet env2 i = some b := hx i b hg
        simp only [deref, hg2] at h2
        match d2, h2 with
        | d2 + 1, h2 =>
          exact deref_mono (ih h h2) (Nat.le_succ d2)

/-! ## Monotonicity of `apply` in the fuel -/

theorem applyMono :
    ∀ f : Nat,
      (∀ {f' : Nat} {env : Env} {t s : Term},
        applyT f env t = some s → f ≤ f' → applyT f' env t = some s) ∧
      (∀ {f' : Nat} {env : Env} {l s : List Term},
        applyList f env l = some s → f ≤ f' → applyList f' env l = some s) := by
  intro f
  induction f with
  | zero =>
    refine ⟨?_, ?_⟩
    · intro f' env t s h
      simp [applyT] at h
    · intro f' env l s h hle
      match l, h with
      | [], h =>
        simp only [applyList] at h
        simp [applyList, h]
      | a :: rest, h => simp [applyList] at h
  | succ f ih =>
    refine ⟨?_, ?_⟩
    · intro f' env t s h hle
      match f', hle with
      | f' + 1, hle =>
        have hle' : f ≤ f' := Nat.le_of_succ_le_succ hle
        simp only [applyT] at h ⊢
        match hd : deref f t env, h with
        | none, h => simp at h
        | some u, h =>
          rw [deref_mono hd hle']
          match u, h with
          | .atom a, h => exact h
          | .num v, h => exact h
          | .var n i, h => exact h
          | .comp g args, h =>
            replace h :
                (match applyList f env args with
                  | none => none
                  | some args' => some (Term.comp g args')) = some s := h
            match hl : applyList f env args, h with
            | none, h => simp at h
            | some args', h =>
              have hl' : applyList f' env args = some args' := ih.2 hl hle'
              simpa [hl'] using h
    · intro f' env l s h hle
      match l, h with
      | [], h =>
        simp only [applyList] at h
        simp [applyList, h]
      | a :: rest, h =>
        match f', hle with
        | f' + 1, hle =>
          have hle' : f ≤ f' := Nat.le_of_succ_le_succ hle
          simp only [applyList] at h ⊢
          match ha : applyT f env a, h with
          | none, h => simp at h
          | some a', h =>
            have ha' : applyT f' env a = some a' := ih.1 ha hle'
            replace h :
                (match applyList f env rest with
                  | none => none
                  | some rest' => some (a' :: rest')) = some s := h
            match hr : applyList f env rest, h with
            | none, h => simp at h
            | some rest', h =>
              have hr' : applyList f' env rest = some rest' := ih.2 hr hle'
              simpa [ha', hr'] using h

/-- If `t` dereferences to `u` in `env`, then in any extension `env2` the
full substitutions of `t` and `u` agree. -/
theorem applyT_congr_deref {d ff : Nat} {t u s : Term} {env env2 : Env}
    (hd : deref d t env = some u) (hx : Extends env env2)
    (h : applyT ff env2 t = some s) : applyT ff env2 u = some s := by
  match ff, h with
  | 0, h => simp [applyT] at h
  | f + 1, h =>
    simp only [applyT] at h ⊢
    match hw : deref f t env2, h with
    | none, h => simp at h
    | some w, h =>
      rw [deref_extends hd hx hw]
      exact h

/-- Substituting a bound variable is substituting its value. -/
theorem applyT_var_bound {ff : Nat} {env2 : Env} {n : String} {i : Nat} {b s : Term}
    (hg : envGet env2 i = some b) (h : applyT ff env2 (.var n i) = some s) :
    applyT ff env2 b = some s := by
  match ff, h with
  | 0, h => simp [applyT] at h
  | f + 1, h =>
    simp only [applyT] at h ⊢
    match f, h with
    | 0, h => simp [deref, hg] at h
    | f' + 1, h =>
      simp only [deref, hg] at h
      match hw : deref f' b env2, h with
      | none, h => simp at h
      | some w, h =>
        rw [deref_mono hw (Nat.le_succ f')]
        exact h

/-! ## The naming discipline -/

theorem envNamed_envSet {nm : Nat → String} {env : Env} {i : Nat} {t : Term}
    (he : EnvNamed nm env) (ht : NamedBy nm t) : EnvNamed nm (envSet env i t) := by
  intro j u hj
  rw [envGet_envSet] at hj
  split at hj
  · cases hj; exact ht
  · exact he j u hj

theorem namedBy_deref {nm : Nat → String} {f : Nat} {t u : Term} {env : Env}
    (ht : NamedBy nm t) (he : EnvNamed nm env) (h : deref f t env = some u) :
    NamedBy nm u := by
  induction f generalizing t with
  | zero =>
    match t with
    | .atom a => simp only [deref, Option.some.injEq] at h; subst h; exact ht
    | .num v => simp only [deref, Option.some.injEq] at h; subst h; exact ht
    | .comp g args => simp only [deref, Option.some.injEq] at h; subst h; exact ht
    | .var n i =>
      simp only [deref] at h
      match hg : envGet env i, h with
      | none, h =>
        replace h : Term.var n i = u := by simpa using h
        subst h; exact ht
      | some b, h => cases h
  | succ f ih =>
    match t with
    | .atom a => simp only [deref, Option.some.injEq] at h; subst h; exact ht
    | .num v => simp only [deref, Option.some.injEq] at h; subst h; exact ht
    | .comp g args => simp only [deref, Option.some.injEq] at h; subst h; exact ht
    | .var n i =>
      simp only [deref] at h
      match hg : envGet env i, h with
      | none, h =>
        replace h : Term.var n i = u := by simpa using h
        subst h; exact ht
      | some b, h => exact ih (he i b hg) h

theorem namedBy_var_name {nm : Nat → String} {n : String} {i : Nat}
    (h : NamedBy nm (.var n i)) : n = nm i := by
  cases h; rfl

theorem namedBy_comp_args {nm : Nat → String} {g : String} {args : List Term}
    (h : NamedBy nm (.comp g args)) : ∀ a ∈ args, NamedBy nm a := by
  cases h; assumption

/-! ## The `bindCheck` branch of `unify` -/

/-- Case analysis on the `Var ↔ anything` branch: either the occurs-check
fired (failure, state untouched) or the variable was bound. -/
theorem bindCheck_cases {f : Nat} {oc : Bool} {v : Nat} {t : Term} {env : Env} {tr : Trail}
    {b : Bool} {env' : Env} {tr' : Trail}
    (h : bindCheck f oc v t env tr = some (b, env', tr')) :
    (b = false ∧ env' = env ∧ tr' = tr ∧ oc = true ∧ occursIn f v t env = some true) ∨
    (b = true ∧ env' = envSet env v t ∧ tr' = trailPush tr v ∧
      (oc = false ∨ occursIn f v t env = some false)) := by
  unfold bindCheck at h
  by_cases hoc : oc
  · rw [if_pos hoc] at h
    match hocc : occursIn f v t env, h with
    | none, h => cases h
    | some true, h =>
      cases h
      exact Or.inl ⟨rfl, rfl, rfl, hoc, rfl⟩
    | some false, h =>
      replace h : some (true, envSet env v t, trailPush tr v) = some (b, env', tr') := h
      cases h
      exact Or.inr ⟨rfl, rfl, rfl, Or.inr rfl⟩
  · replace hoc : oc = false := by simpa using hoc
    rw [hoc] at h
    replace h : some (true, envSet env v t, trailPush tr v) = some (b, env', tr') := h
    cases h
    exact Or.inr ⟨rfl, rfl, rfl, Or.inl hoc⟩

/-- `bindCheck` on an unbound variable extends the environment. -/
theorem bindCheck_extends {f : Nat} {oc : Bool} {v : Nat} {t : Term} {env : Env}
    {tr : Trail} {b : Bool} {env' : Env} {tr' : Trail}
    (hv : envGet env v = none)
    (h : bindCheck f oc v t env tr = some (b, env', tr')) : Extends env env' := by
  rcases bindCheck_cases h with ⟨_, he, _⟩ | ⟨_, he, _⟩ <;> subst he
  · exact extends_refl _
  · exact extends_envSet t hv

/-- `bindCheck` preserves the naming discipline. -/
theorem bindCheck_envNamed {nm : Nat → String} {f : Nat} {oc : Bool} {v : Nat}
    {t : Term} {env : Env} {tr : Trail} {b : Bool} {env' : Env} {tr' : Trail}
    (ht : NamedBy nm t) (h : bindCheck f oc v t env tr = some (b, env', tr'))
    (hn : EnvNamed nm env) : EnvNamed nm env' := by
  rcases bindCheck_cases h with ⟨_, he, _⟩ | ⟨_, he, _⟩ <;> subst he
  · exact hn
  · exact envNamed_envSet hn ht

/-! ## Inverting one step of `unify` -/

/-- `unify (f+1)` is: dereference both sides, then run `unifyStep`. -/
theorem unify_succ (f : Nat) (t1 t2 : Term) (env : Env) (tr : Trail) (oc : Bool) :
    unify (f + 1) t1 t2 env tr oc =
      match deref f t1 env, deref f t2 env with
      | some d1, some d2 => unifyStep f d1 d2 env tr oc
      | _, _ => none := rfl

/-- Exhaustive characterization of `unifyStep`'s success cases. -/
theorem unifyStep_cases {f : Nat} {d1 d2 : Term} {env : Env} {tr : Trail} {oc : Bool}
    {r : Bool × Env × Trail} (h : unifyStep f d1 d2 env tr oc = some r) :
    (∃ n1 n2 i, d1 = .var n1 i ∧ d2 = .var n2 i ∧ r = (true, env, tr)) ∨
    (∃ n1 i1, d1 = .var n1 i1 ∧ bindCheck f oc i1 d2 env tr = some r) ∨
    ((∀ n i, d1 ≠ .var n i) ∧ ∃ n2 i2, d2 = .var n2 i2 ∧
      bindCheck f oc i2 d1 env tr = some r) ∨
    (∃ a1 a2, d1 = .atom a1 ∧ d2 = .atom a2 ∧ r = (a1 == a2, env, tr)) ∨
    (∃ v1 v2, d1 = .num v1 ∧ d2 = .num v2 ∧ r = (v1 == v2, env, tr)) ∨
    (∃ g as1 as2, d1 = .comp g as1 ∧ d2 = .comp g as2 ∧ as1.length = as2.length ∧
      unifyList f as1 as2 env tr oc = some r) ∨
    (r = (false, env, tr)) := by
  match d1, d2 with
  | .var n1 i1, .var n2 i2 =>
    simp only [unifyStep] at h
    by_cases hii : i1 = i2
    · rw [if_pos hii] at h
      subst hii
      cases h
      exact Or.inl ⟨n1, n2, i1, rfl, rfl, rfl⟩
    · rw [if_neg hii] at h
      exact Or.inr (Or.inl ⟨n1, i1, rfl, h⟩)
  | .var n1 i1, .atom a =>
    simp only [unifyStep] at h
    exact Or.inr (Or.inl ⟨n1, i1, rfl, h⟩)
  | .var n1 i1, .num v =>
    simp only [unifyStep] at h
    exact Or.inr (Or.inl ⟨n1, i1, rfl, h⟩)
  | .var n1 i1, .comp g args =>
    simp only [unifyStep] at h
    exact Or.inr (Or.inl ⟨n1, i1, rfl, h⟩)
  | .atom a1, .var n2 i2 =>
    simp only [unifyStep] at h
    exact Or.inr (Or.inr (Or.inl ⟨(by intro n i hne; cases hne), n2, i2, rfl, h⟩))
  | .num v1, .var n2 i2 =>
    simp only [unifyStep] at h
    exact Or.inr (Or.inr (Or.inl ⟨(by intro n i hne; cases hne), n2, i2, rfl, h⟩))
  | .comp g1 as1, .var n2 i2 =>
    simp only [unifyStep] at h
    exact Or.inr (Or.inr (Or.inl ⟨(by intro n i hne; cases hne), n2, i2, rfl, h⟩))
  | .atom a1, .atom a2 =>
    simp only [unifyStep] at h
    cases h
    exact Or.inr (Or.inr (Or.inr (Or.inl ⟨a1, a2, rfl, rfl, rfl⟩)))
  | .atom a1, .num v2 =>
    simp only [unifyStep] at h
    cases h
    exact Or.inr (Or.inr (Or.inr (Or.inr (Or.inr (Or.inr rfl)))))
  | .atom a1, .comp g2 bs =>
    simp only [unifyStep] at h
    cases h
    exact Or.inr (Or.inr (Or.inr (Or.inr (Or.inr (Or.inr rfl)))))
  | .num v1, .atom a2 =>
    simp only [unifyStep] at h
    cases h
    exact Or.inr (Or.inr (Or.inr (Or.inr (Or.inr (Or.inr rfl)))))
  | .num v1, .num v2 =>
    simp only [unifyStep] at h
    cases h
    exact Or.inr (Or.inr (Or.inr (Or.inr (Or.inl ⟨v1, v2, rfl, rfl, rfl⟩))))
  | .num v1, .comp g2 bs =>
    simp only [unifyStep] at h
    cases h
    exact Or.inr (Or.inr (Or.inr (Or.inr (Or.inr (Or.inr rfl)))))
  | .comp g1 as1, .atom a2 =>
    simp only [unifyStep] at h
    cases h
    exact Or.inr (Or.inr (Or.inr (Or.inr (Or.inr (Or.inr rfl)))))
  | .comp g1 as1, .num v2 =>
    simp only [unifyStep] at h
    cases h
    exact Or.inr (Or.inr (Or.inr (Or.inr (Or.inr (Or.inr rfl)))))
  | .comp g1 as1, .comp g2 as2 =>
    simp only [unifyStep] at h
    by_cases hg : g1 = g2 ∧ as1.length = as2.length
    · rw [if_pos hg] at h
      exact Or.inr (Or.inr (Or.inr (Or.inr (Or.inr (Or.inl
        ⟨g1, as1, as2, rfl, by rw [hg.1], hg.2, h⟩)))))
    · rw [if_neg hg] at h
      cases h
      exact Or.inr (Or.inr (Or.inr (Or.inr (Or.inr (Or.inr rfl)))))

/-! ## `unify` extends the environment and preserves naming -/

theorem unify_extends_named (nm : Nat → String) :
    ∀ f : Nat,
      (∀ {t1 t2 : Term} {env : Env} {tr : Trail} {oc b : Bool} {env' : Env} {tr' : Trail},
        unify f t1 t2 env tr oc = some (b, env', tr') →
        Extends env env' ∧
        (NamedBy nm t1 → NamedBy nm t2 → EnvNamed nm env → EnvNamed nm env')) ∧
      (∀ {as1 as2 : List Term} {env : Env} {tr : Trail} {oc b : Bool} {env' : Env} {tr' : Trail},
        unifyList f as1 as2 env tr oc = some (b, env', tr') →
        Extends env env' ∧
        ((∀ a ∈ as1, NamedBy nm a) → (∀ a ∈ as2, NamedBy nm a) →
          EnvNamed nm env → EnvNamed nm env')) := by
  intro f
  induction f with
  | zero =>
    refine ⟨?_, ?_⟩
    · intro t1 t2 env tr oc b env' tr' h
      simp [unify] at h
    · intro as1 as2 env tr oc b env' tr' h
      match as1, as2, h with
      | [], [], h =>
        replace h : some (true, env, tr) = some (b, env', tr') := h
        cases h
        exact ⟨extends_refl _, fun _ _ hn => hn⟩
      | [], _ :: _, h =>
        replace h : some (true, env, tr) = some (b, env', tr') := h
        cases h
        exact ⟨extends_refl _, fun _ _ hn => hn⟩
      | _ :: _, [], h =>
        replace h : some (true, env, tr) = some (b, env', tr') := h
        cases h
        exact ⟨extends_refl _, fun _ _ hn => hn⟩
      | _ :: _, _ :: _, h =>
        replace h : (none : Option (Bool × Env × Trail)) = some (b, env', tr') := h
        cases h
  | succ f ih =>
    refine ⟨?_, ?_⟩
    · intro t1 t2 env tr oc b env' tr' h
      rw [unify_succ] at h
      match hd1 : deref f t1 env, hd2 : deref f t2 env, h with
      | none, _, h => exact absurd h (by simp)
      | some d1, none, h => exact absurd h (by simp)
      | some d1, some d2, h =>
        replace h : unifyStep f d1 d2 env tr oc = some (b, env', tr') := h
        have named1 : NamedBy nm t1 → EnvNamed nm env → NamedBy nm d1 :=
          fun h1 hn => namedBy_deref h1 hn hd1
        have named2 : NamedBy nm t2 → EnvNamed nm env → NamedBy nm d2 :=
          fun h2 hn => namedBy_deref h2 hn hd2
        rcases unifyStep_cases h with
          ⟨n1, n2, i, he1, he2, hr⟩ | ⟨n1, i1, he1, hbc⟩ |
          ⟨hnv, n2, i2, he2, hbc⟩ | ⟨a1, a2, he1, he2, hr⟩ |
          ⟨v1, v2, he1, he2, hr⟩ | ⟨g, bs1, bs2, he1, he2, hlen, hul⟩ | hr
        · simp only [Prod.mk.injEq] at hr
          obtain ⟨_, he, _⟩ := hr
          subst he
          exact ⟨extends_refl _, fun _ _ hn => hn⟩
        · subst he1
          have hv : envGet env i1 = none := deref_unbound hd1
          refine ⟨bindCheck_extends hv hbc, fun h1 h2 hn => ?_⟩
          exact bindCheck_envNamed (named2 h2 hn) hbc hn
        · subst he2
          have hv : envGet env i2 = none := deref_unbound hd2
          refine ⟨bindCheck_extends hv hbc, fun h1 h2 hn => ?_⟩
          exact bindCheck_envNamed (named1 h1 hn) hbc hn
        · simp only [Prod.mk.injEq] at hr
          obtain ⟨_, he, _⟩ := hr
          subst he
          exact ⟨extends_refl _, fun _ _ hn => hn⟩
        · simp only [Prod.mk.injEq] at hr
          obtain ⟨_, he, _⟩ := hr
          subst he
          exact ⟨extends_refl _, fun _ _ hn => hn⟩
        · subst he1; subst he2
          obtain ⟨hx, hk⟩ := ih.2 hul
          refine ⟨hx, fun h1 h2 hn => ?_⟩
          exact hk (namedBy_comp_args (named1 h1 hn))
            (namedBy_comp_args (named2 h2 hn)) hn
        · simp only [Prod.mk.injEq] at hr
          obtain ⟨_, he, _⟩ := hr
          subst he
          exact ⟨extends_refl _, fun _ _ hn => hn⟩
    · intro as1 as2 env tr oc b env' tr' h
      match as1, as2, h with
      | [], [], h =>
        replace h : some (true, env, tr) = some (b, env', tr') := h
        cases h
        exact ⟨extends_refl _, fun _ _ hn => hn⟩
      | [], _ :: _, h =>
        replace h : some (true, env, tr) = some (b, env', tr') := h
        cases h
        exact ⟨extends_refl _, fun _ _ hn => hn⟩
      | _ :: _, [], h =>
        replace h : some (true, env, tr) = some (b, env', tr') := h
        cases h
        exact ⟨extends_refl _, fun _ _ hn => hn⟩
      | a :: rest1, c :: rest2, h =>
        replace h :
            (match unify f a c env tr oc with
              | none => none
              | some (false, env', tr') => some (false, env', tr')
              | some (true, env', tr') => unifyList f rest1 rest2 env' tr' oc)
              = some (b, env', tr') := h
        match hu : unify f a c env tr oc, h with
        | none, h => cases h
        | some (false, env1, tr1), h =>
          cases h
          obtain ⟨hx, hk⟩ := ih.1 hu
          exact ⟨hx, fun h1 h2 hn => hk (h1 a (by simp)) (h2 c (by simp)) hn⟩
        | some (true, env1, tr1), h =>
          obtain ⟨hx1, hk1⟩ := ih.1 hu
          obtain ⟨hx2, hk2⟩ := ih.2 h
          refine ⟨extends_trans hx1 hx2, fun h1 h2 hn => ?_⟩
          exact hk2 (fun x hx => h1 x (by simp [hx])) (fun x hx => h2 x (by simp [hx]))
            (hk1 (h1 a (by simp)) (h2 c (by simp)) hn)

/-! ## Computing `apply` on dereferenced shapes -/

theorem applyT_atom {ff : Nat} {env : Env} {a : String} {s : Term}
    (h : applyT ff env (.atom a) = some s) : s = .atom a := by
  match ff, h with
  | 0, h => exact absurd h (by simp [applyT])
  | f + 1, h =>
    simp only [applyT, deref, Option.some.injEq] at h
    exact h.symm

theorem applyT_num {ff : Nat} {env : Env} {v : ℚ} {s : Term}
    (h : applyT ff env (.num v) = some s) : s = .num v := by
  match ff, h with
  | 0, h => exact absurd h (by simp [applyT])
  | f + 1, h =>
    simp only [applyT, deref, Option.some.injEq] at h
    exact h.symm

theorem applyT_comp_inv {ff : Nat} {env : Env} {g : String} {args : List Term} {s : Term}
    (h : applyT ff env (.comp g args) = some s) :
    ∃ f' l, ff = f' + 1 ∧ applyList f' env args = some l ∧ s = .comp g l := by
  match ff, h with
  | 0, h => exact absurd h (by simp [applyT])
  | f + 1, h =>
    simp only [applyT, deref] at h
    match hl : applyList f env args, h with
    | none, h => cases h
    | some l, h =>
      cases h
      exact ⟨f, l, rfl, hl, rfl⟩

theorem applyList_nil {ff : Nat} {env : Env} {l : List Term}
    (h : applyList ff env [] = some l) : l = [] := by
  simp only [applyList, Option.some.injEq] at h
  exact h.symm

theorem applyList_cons_inv {ff : Nat} {env : Env} {a : Term} {rest : List Term}
    {l : List Term} (h : applyList ff env (a :: rest) = some l) :
    ∃ f' a' l', ff = f' + 1 ∧ applyT f' env a = some a' ∧
      applyList f' env rest = some l' ∧ l = a' :: l' := by
  match ff, h with
  | 0, h => exact absurd h (by simp [applyList])
  | f + 1, h =>
    simp only [applyList] at h
    match ha : applyT f env a, h with
    | none, h => cases h
    | some a', h =>
      match hr : applyList f env rest, h with
      | none, h => cases h
      | some l', h =>
        cases h
        exact ⟨f, a', l', rfl, ha, hr, rfl⟩

/-! ## Soundness of unification (spec §8.1):
on success, applying the resulting environment to both terms yields the
same fully substituted term. -/

theorem unify_sound (nm : Nat → String) :
    ∀ f : Nat,
      (∀ {t1 t2 : Term} {env : Env} {tr : Trail} {oc : Bool} {env' : Env} {tr' : Trail},
        unify f t1 t2 env tr oc = some (true, env', tr') →
        NamedBy nm t1 → NamedBy nm t2 → EnvNamed nm env →
        ∀ {envF : Env}, Extends env' envF →
        ∀ {ff : Nat} {s1 s2 : Term},
          applyT ff envF t1 = some s1 → applyT ff envF t2 = some s2 → s1 = s2) ∧
      (∀ {as1 as2 : List Term} {env : Env} {tr : Trail} {oc : Bool} {env' : Env} {tr' : Trail},
        unifyList f as1 as2 env tr oc = some (true, env', tr') →
        as1.length = as2.length →
        (∀ a ∈ as1, NamedBy nm a) → (∀ a ∈ as2, NamedBy nm a) → EnvNamed nm env →
        ∀ {envF : Env}, Extends env' envF →
        ∀ {ff : Nat} {l1 l2 : List Term},
          applyList ff envF as1 = some l1 → applyList ff envF as2 = some l2 →
          l1 = l2) := by
  intro f
  induction f with
  | zero =>
    refine ⟨?_, ?_⟩
    · intro t1 t2 env tr oc env' tr' h
      simp [unify] at h
    · intro as1 as2 env tr oc env' tr' h hlen _ _ _ envF _ ff l1 l2 h1 h2
      match as1, as2, hlen with
      | [], [], _ =>
        rw [applyList_nil h1, applyList_nil h2]
      | a :: rest1, c :: rest2, hlen =>
        replace h : (none : Option (Bool × Env × Trail)) = some (true, env', tr') := h
        cases h
  | succ f ih =>
    refine ⟨?_, ?_⟩
    · intro t1 t2 env tr oc env' tr' h hn1 hn2 hne envF hF ff s1 s2 h1 h2
      rw [unify_succ] at h
      match hd1 : deref f t1 env, hd2 : deref f t2 env, h with
      | none, _, h => exact absurd h (by simp)
      | some d1, none, h => exact absurd h (by simp)
      | some d1, some d2, h =>
        replace h : unifyStep f d1 d2 env tr oc = some (true, env', tr') := h
        have hnd1 : NamedBy nm d1 := namedBy_deref hn1 hne hd1
        have hnd2 : NamedBy nm d2 := namedBy_deref hn2 hne hd2
        rcases unifyStep_cases h with
          ⟨n1, n2, i, he1, he2, hr⟩ | ⟨n1, i1, he1, hbc⟩ |
          ⟨hnv, n2, i2, he2, hbc⟩ | ⟨a1, a2, he1, he2, hr⟩ |
          ⟨v1, v2, he1, he2, hr⟩ | ⟨g, bs1, bs2, he1, he2, hlen, hul⟩ | hr
        · -- Var ↔ Var with the same id: no binding was added.
          simp only [Prod.mk.injEq] at hr
          obtain ⟨-, he, -⟩ := hr
          have hx : Extends env envF := he ▸ hF
          have e1 : applyT ff envF d1 = some s1 := applyT_congr_deref hd1 hx h1
          have e2 : applyT ff envF d2 = some s2 := applyT_congr_deref hd2 hx h2
          have hd1d2 : d1 = d2 := by
            subst he1; subst he2
            rw [namedBy_var_name hnd1, namedBy_var_name hnd2]
          rw [hd1d2] at e1
          rw [e1] at e2
          exact (Option.some.injEq _ _).mp e2
        · -- d1 is an unbound variable, bound to d2.
          subst he1
          rcases bindCheck_cases hbc with ⟨hb, -⟩ | ⟨-, he, -⟩
          · cases hb
          · subst he
            have hv : envGet env i1 = none := deref_unbound hd1
            have hx : Extends env envF :=
              extends_trans (extends_envSet d2 hv) hF
            have hgF : envGet envF i1 = some d2 := by
              apply hF
              rw [envGet_envSet]
              simp
            have e1 : applyT ff envF (.var n1 i1) = some s1 :=
              applyT_congr_deref hd1 hx h1
            have e1' : applyT ff envF d2 = some s1 := applyT_var_bound hgF e1
            have e2 : applyT ff envF d2 = some s2 := applyT_congr_deref hd2 hx h2
            rw [e1'] at e2
            exact (Option.some.injEq _ _).mp e2
        · -- d2 is an unbound variable, bound to d1.
          subst he2
          rcases bindCheck_cases hbc with ⟨hb, -⟩ | ⟨-, he, -⟩
          · cases hb
          · subst he
            have hv : envGet env i2 = none := deref_unbound hd2
            have hx : Extends env envF :=
              extends_trans (extends_envSet d1 hv) hF
            have hgF : envGet envF i2 = some d1 := by
              apply hF
              rw [envGet_envSet]
              simp
            have e2 : applyT ff envF (.var n2 i2) = some s2 :=
              applyT_congr_deref hd2 hx h2
            have e2' : applyT ff envF d1 = some s2 := applyT_var_bound hgF e2
            have e1 : applyT ff envF d1 = some s1 := applyT_congr_deref hd1 hx h1
            rw [e1] at e2'
            exact (Option.some.injEq _ _).mp e2'
        · -- Atom ↔ Atom: success implies equal names.
          simp only [Prod.mk.injEq] at hr
          obtain ⟨hb, he, -⟩ := hr
          have ha : a1 = a2 := by simpa using hb.symm
          subst ha; subst he1; subst he2
          have hx : Extends env envF := he ▸ hF
          have e1 : applyT ff envF (.atom a1) = some s1 := applyT_congr_deref hd1 hx h1
          have e2 : applyT ff envF (.atom a1) = some s2 := applyT_congr_deref hd2 hx h2
          rw [applyT_atom e1, applyT_atom e2]
        · -- Number ↔ Number: success implies equal values.
          simp only [Prod.mk.injEq] at hr
          obtain ⟨hb, he, -⟩ := hr
          have hv : v1 = v2 := by simpa using hb.symm
          subst hv; subst he1; subst he2
          have hx : Extends env envF := he ▸ hF
          have e1 : applyT ff envF (.num v1) = some s1 := applyT_congr_deref hd1 hx h1
          have e2 : applyT ff envF (.num v1) = some s2 := applyT_congr_deref hd2 hx h2
          rw [applyT_num e1, applyT_num e2]
        · -- Compound ↔ Compound: argument lists unify pairwise.
          subst he1; subst he2
          have hx : Extends env envF :=
            extends_trans ((unify_extends_named nm f).2 hul).1 hF
          have e1 : applyT ff envF (.comp g bs1) = some s1 :=
            applyT_congr_deref hd1 hx h1
          have e2 : applyT ff envF (.comp g bs2) = some s2 :=
            applyT_congr_deref hd2 hx h2
          obtain ⟨f1, l1, hff1, hl1, hs1⟩ := applyT_comp_inv e1
          obtain ⟨f2, l2, hff2, hl2, hs2⟩ := applyT_comp_inv e2
          have hff : f1 = f2 := Nat.succ_injective (hff1.symm.trans hff2)
          subst hs1; subst hs2
          have hll : l1 = l2 := by
            apply ih.2 hul hlen (namedBy_comp_args hnd1) (namedBy_comp_args hnd2)
              hne hF hl1
            rw [hff]
            exact hl2
          rw [hll]
        · cases hr
    · intro as1 as2 env tr oc env' tr' h hlen hn1 hn2 hne envF hF ff l1 l2 h1 h2
      match as1, as2, hlen, h with
      | [], [], _, h =>
        rw [applyList_nil h1, applyList_nil h2]
      | a :: rest1, c :: rest2, hlen, h =>
        replace h :
            (match unify f a c env tr oc with
              | none => none
              | some (false, env', tr') => some (false, env', tr')
              | some (true, env', tr') => unifyList f rest1 rest2 env' tr' oc)
              = some (true, env', tr') := h
        match hu : unify f a c env tr oc, h with
        | none, h => cases h
        | some (false, env1, tr1), h => cases h
        | some (true, env1, tr1), h =>
          obtain ⟨f', a', l1', hff1, ha1, hr1, hl1⟩ := applyList_cons_inv h1
          obtain ⟨f'', c', l2', hff2, ha2, hr2, hl2⟩ := applyList_cons_inv h2
          have hff : f'' = f' := (Nat.succ_injective (hff1.symm.trans hff2)).symm
          subst hff
          subst hl1; subst hl2
          have hx1 : Extends env1 env' := ((unify_extends_named nm f).2 h).1
          have hne1 : EnvNamed nm env1 :=
            ((unify_extends_named nm f).1 hu).2 (hn1 a (by simp)) (hn2 c (by simp)) hne
          have hac : a' = c' :=
            ih.1 hu (hn1 a (by simp)) (hn2 c (by simp)) hne
              (extends_trans hx1 hF) ha1 ha2
          have hrest : l1' = l2' :=
            ih.2 h (by simpa using hlen)
              (fun x hx => hn1 x (by simp [hx]))
              (fun x hx => hn2 x (by simp [hx])) hne1 hF hr1 hr2
          rw [hac, hrest]

/-- C4.  Unification soundness: whenever `unify(t1, t2, env, trail,
occurs_check)` returns true, `apply(env, t1)` and `apply(env, t2)` are
structurally identical for the resulting environment.  The hypotheses
`applyT … = some _` are the claim's own proviso that the resulting bindings
are acyclic so that `apply` is defined; `NamedBy`/`EnvNamed` express the
source's variable-identity discipline (ids are globally unique, so all
occurrences of one id carry one name). -/
theorem c4_unify_soundness (nm : Nat → String) (f : Nat) (t1 t2 : Term) (env : Env)
    (tr : Trail) (oc : Bool) (env' : Env) (tr' : Trail)
    (hu : unify f t1 t2 env tr oc = some (true, env', tr'))
    (hn1 : NamedBy nm t1) (hn2 : NamedBy nm t2) (hne : EnvNamed nm env)
    {f1 f2 : Nat} {s1 s2 : Term}
    (h1 : applyT f1 env' t1 = some s1) (h2 : applyT f2 env' t2 = some s2) :
    s1 = s2 := by
  have h1' : applyT (max f1 f2) env' t1 = some s1 :=
    (applyMono f1).1 h1 (Nat.le_max_left f1 f2)
  have h2' : applyT (max f1 f2) env' t2 = some s2 :=
    (applyMono f2).1 h2 (Nat.le_max_right f1 f2)
  exact (unify_sound nm f).1 hu hn1 hn2 hne (extends_refl env') h1' h2'

/-- Witness for C4 at a concrete input: unifying `f(X, b)` with `f(a, Y)`
succeeds and both sides apply to `f(a, b)`. -/
theorem c4_unify_soundness_witness :
    Term.comp "f" [.atom "a", .atom "b"] = Term.comp "f" [.atom "a", .atom "b"] :=
  @c4_unify_soundness (fun i => if i = 1 then "X" else "Y") 9
    (.comp "f" [.var "X" 1, .atom "b"]) (.comp "f" [.atom "a", .var "Y" 2])
    ⟨[]⟩ ⟨[]⟩ false ⟨[(1, .atom "a"), (2, .atom "b")]⟩ ⟨[2, 1]⟩ rfl
    (NamedBy.comp (by
      intro a ha
      simp only [List.mem_cons, List.not_mem_nil, or_false] at ha
      rcases ha with rfl | rfl
      · exact NamedBy.var 1
      · exact NamedBy.atom "b"))
    (NamedBy.comp (by
      intro a ha
      simp only [List.mem_cons, List.not_mem_nil, or_false] at ha
      rcases ha with rfl | rfl
      · exact NamedBy.atom "a"
      · exact NamedBy.var 2))
    (by intro i u h; simp [envGet] at h)
    9 9 (.comp "f" [.atom "a", .atom "b"]) (.comp "f" [.atom "a", .atom "b"])
    rfl rfl

/-! ## Occurs-check safety: reachability lemmas -/

theorem steps_trans {env : Env} {s u : Term} {i j : Nat}
    (h : Steps env s i) (hg : envGet env i = some u) (hu : Steps env u j) :
    Steps env s j := by
  induction h with
  | var n i => exact Steps.deref hg hu
  | deref hg' hsub ih => exact Steps.deref hg' (ih hg)
  | arg ha hsub ih => exact Steps.arg ha (ih hg)

theorem occursAny_false_mem {f v : Nat} {args : List Term} {env : Env} {a : Term}
    (h : occursAny f v args env = some false) (ha : a ∈ args) :
    ∃ fa, occursIn fa v a env = some false := by
  induction args generalizing f with
  | nil => cases ha
  | cons x rest ih =>
    match f, h with
    | 0, h => exact absurd h (by simp [occursAny])
    | f + 1, h =>
      replace h :
          (match occursIn f v x env with
            | none => none
            | some true => some true
            | some false => occursAny f v rest env) = some false := h
      match hx : occursIn f v x env, h with
      | none, h => cases h
      | some true, h => cases h
      | some false, h =>
        rcases List.mem_cons.mp ha with rfl | hmem
        · exact ⟨f, hx⟩
        · exact ih h hmem

/-- If the walk from `t` reaches the unbound variable `v`, the occurs-check
on `(v, t)` cannot report false. -/
theorem steps_occurs {env : Env} {v : Nat} (hv : envGet env v = none) :
    ∀ {t : Term}, Steps env t v → ∀ fo, occursIn fo v t env ≠ some false := by
  intro t hst
  induction hst with
  | var n i =>
    intro fo h
    match fo, h with
    | 0, h => exact absurd h (by simp [occursIn])
    | f + 1, h =>
      rw [show occursIn (f + 1) i (.var n i) env = some (i == i) by
        simp [occursIn, deref, hv]] at h
      simp at h
  | @deref n j i u hg hsub ih =>
    intro fo h
    match fo, h with
    | 0, h => exact absurd h (by simp [occursIn])
    | f + 1, h =>
      simp only [occursIn] at h
      match f, h with
      | 0, h =>
        rw [show deref 0 (Term.var n j) env = none by simp [deref, hg]] at h
        cases h
      | f' + 1, h =>
        rw [show deref (f' + 1) (Term.var n j) env = deref f' u env by
          simp [deref, hg]] at h
        match hw : deref f' u env, h with
        | none, h => cases h
        | some w, h =>
          have h' : occursIn (f' + 1 + 1) i u env = some false := by
            simp only [occursIn]
            rw [deref_mono hw (Nat.le_succ f')]
            exact h
          exact ih hv (f' + 1 + 1) h'
  | @arg g args a i ha hsub ih =>
    intro fo h
    match fo, h with
    | 0, h => exact absurd h (by simp [occursIn])
    | f + 1, h =>
      rw [show occursIn (f + 1) i (.comp g args) env = occursAny f i args env by
        simp [occursIn, deref]] at h
      obtain ⟨fa, hfa⟩ := occursAny_false_mem h ha
      exact ih hv fa hfa

/-- Decomposition of reachability in an extended environment: a walk either
stays inside the old environment or passes through the new binding. -/
theorem steps_envSet_decomp {env : Env} {v : Nat} {t : Term} :
    ∀ {s : Term} {i : Nat}, Steps (envSet env v t) s i →
      Steps env s i ∨ (Steps env s v ∧ Steps (envSet env v t) t i) := by
  intro s i h
  induction h with
  | var n i => exact Or.inl (Steps.var n i)
  | @deref n j i u hg hsub ih =>
    rw [envGet_envSet] at hg
    by_cases hjv : j = v
    · subst hjv
      rw [if_pos rfl] at hg
      cases hg
      exact Or.inr ⟨Steps.var n j, hsub⟩
    · rw [if_neg hjv] at hg
      rcases ih with hl | ⟨h1, h2⟩
      · exact Or.inl (Steps.deref hg hl)
      · exact Or.inr ⟨Steps.deref hg h1, h2⟩
  | arg ha hsub ih =>
    rcases ih with hl | ⟨h1, h2⟩
    · exact Or.inl (Steps.arg ha hl)
    · exact Or.inr ⟨Steps.arg ha h1, h2⟩

/-- Binding an unbound variable to a term that does not reach it preserves
acyclicity. -/
theorem acyclic_envSet {env : Env} {v : Nat} {t : Term}
    (ha : Acyclic env) (hv : envGet env v = none) (hnt : ¬ Steps env t v) :
    Acyclic (envSet env v t) := by
  intro i u hg hsteps
  rw [envGet_envSet] at hg
  by_cases hiv : i = v
  · subst hiv
    rw [if_pos rfl] at hg
    cases hg
    rcases steps_envSet_decomp hsteps with hl | ⟨h1, _⟩
    · exact hnt hl
    · exact hnt h1
  · rw [if_neg hiv] at hg
    rcases steps_envSet_decomp hsteps with hl | ⟨huv, hti⟩
    · exact ha i u hg hl
    · rcases steps_envSet_decomp hti with hti' | ⟨htv, _⟩
      · exact hnt (steps_trans hti' hg huv)
      · exact hnt htv

/-- With the occurs-check on, the `Var ↔ anything` branch preserves
acyclicity. -/
theorem acyclic_bindCheck {f : Nat} {v : Nat} {t : Term} {env : Env} {tr : Trail}
    {b : Bool} {env' : Env} {tr' : Trail}
    (ha : Acyclic env) (hv : envGet env v = none)
    (h : bindCheck f true v t env tr = some (b, env', tr')) : Acyclic env' := by
  rcases bindCheck_cases h with ⟨-, he, -⟩ | ⟨-, he, -, hocc⟩
  · subst he; exact ha
  · subst he
    rcases hocc with hoc | hocc
    · cases hoc
    · refine acyclic_envSet ha hv ?_
      intro hst
      exact steps_occurs hv hst f hocc

/-- With the occurs-check enabled, every `unify` call (successful or not)
preserves acyclicity of the environment. -/
theorem unify_acyclic :
    ∀ f : Nat,
      (∀ {t1 t2 : Term} {env : Env} {tr : Trail} {b : Bool} {env' : Env} {tr' : Trail},
        unify f t1 t2 env tr true = some (b, env', tr') →
        Acyclic env → Acyclic env') ∧
      (∀ {as1 as2 : List Term} {env : Env} {tr : Trail} {b : Bool} {env' : Env} {tr' : Trail},
        unifyList f as1 as2 env tr true = some (b, env', tr') →
        Acyclic env → Acyclic env') := by
  intro f
  induction f with
  | zero =>
    refine ⟨?_, ?_⟩
    · intro t1 t2 env tr b env' tr' h
      simp [unify] at h
    · intro as1 as2 env tr b env' tr' h ha
      match as1, as2, h with
      | [], [], h =>
        replace h : some (true, env, tr) = some (b, env', tr') := h
        cases h; exact ha
      | [], _ :: _, h =>
        replace h : some (true, env, tr) = some (b, env', tr') := h
        cases h; exact ha
      | _ :: _, [], h =>
        replace h : some (true, env, tr) = some (b, env', tr') := h
        cases h; exact ha
      | _ :: _, _ :: _, h =>
        replace h : (none : Option (Bool × Env × Trail)) = some (b, env', tr') := h
        cases h
  | succ f ih =>
    refine ⟨?_, ?_⟩
    · intro t1 t2 env tr b env' tr' h ha
      rw [unify_succ] at h
      match hd1 : deref f t1 env, hd2 : deref f t2 env, h with
      | none, _, h => exact absurd h (by simp)
      | some d1, none, h => exact absurd h (by simp)
      | some d1, some d2, h =>
        replace h : unifyStep f d1 d2 env tr true = some (b, env', tr') := h
        rcases unifyStep_cases h with
          ⟨n1, n2, i, he1, he2, hr⟩ | ⟨n1, i1, he1, hbc⟩ |
          ⟨hnv, n2, i2, he2, hbc⟩ | ⟨a1, a2, he1, he2, hr⟩ |
          ⟨v1, v2, he1, he2, hr⟩ | ⟨g, bs1, bs2, he1, he2, hlen, hul⟩ | hr
        · simp only [Prod.mk.injEq] at hr
          obtain ⟨-, he, -⟩ := hr
          exact he ▸ ha
        · subst he1
          exact acyclic_bindCheck ha (deref_unbound hd1) hbc
        · subst he2
          exact acyclic_bindCheck ha (deref_unbound hd2) hbc
        · simp only [Prod.mk.injEq] at hr
          obtain ⟨-, he, -⟩ := hr
          exact he ▸ ha
        · simp only [Prod.mk.injEq] at hr
          obtain ⟨-, he, -⟩ := hr
          exact he ▸ ha
        · exact ih.2 hul ha
        · simp only [Prod.mk.injEq] at hr
          obtain ⟨-, he, -⟩ := hr
          exact he ▸ ha
    · intro as1 as2 env tr b env' tr' h ha
      match as1, as2, h with
      | [], [], h =>
        replace h : some (true, env, tr) = some (b, env', tr') := h
        cases h; exact ha
      | [], _ :: _, h =>
        replace h : some (true, env, tr) = some (b, env', tr') := h
        cases h; exact ha
      | _ :: _, [], h =>
        replace h : some (true, env, tr) = some (b, env', tr') := h
        cases h; exact ha
      | a :: rest1, c :: rest2, h =>
        replace h :
            (match unify f a c env tr true with
              | none => none
              | some (false, env', tr') => some (false, env', tr')
              | some (true, env', tr') => unifyList f rest1 rest2 env' tr' true)
              = some (b, env', tr') := h
        match hu : unify f a c env tr true, h with
        | none, h => cases h
        | some (false, env1, tr1), h =>
          cases h
          exact ih.1 hu ha
        | some (true, env1, tr1), h =>
          exact ih.2 h (ih.1 hu ha)

/-- C7.  Occurs-check safety: with the occurs-check on, every `unify` call
preserves the invariant that no binding's value, after dereferencing,
transitively references its own variable (so every environment reachable
from the empty one by unify calls satisfies it); and Scenario F: with the
occurs-check off, `X = f(X)` succeeds and creates exactly such a
self-referential (cyclic) binding, while with it on the same unification
fails and leaves the environment empty. -/
theorem c7_occurs_check_safety :
    (∀ (f : Nat) (t1 t2 : Term) (env : Env) (tr : Trail) (b : Bool)
        (env' : Env) (tr' : Trail),
      Acyclic env → unify f t1 t2 env tr true = some (b, env', tr') →
      Acyclic env') ∧
    Acyclic ⟨[]⟩ ∧
    unify 9 (.var "X" 1) (.comp "f" [.var "X" 1]) ⟨[]⟩ ⟨[]⟩ true
      = some (false, ⟨[]⟩, ⟨[]⟩) ∧
    unify 9 (.var "X" 1) (.comp "f" [.var "X" 1]) ⟨[]⟩ ⟨[]⟩ false
      = some (true, ⟨[(1, .comp "f" [.var "X" 1])]⟩, ⟨[1]⟩) ∧
    Steps ⟨[(1, .comp "f" [.var "X" 1])]⟩ (.comp "f" [.var "X" 1]) 1 := by
  refine ⟨fun f t1 t2 env tr b env' tr' ha hu => (unify_acyclic f).1 hu ha,
    ?_, rfl, rfl, ?_⟩
  · intro i u h
    simp [envGet] at h
  · exact Steps.arg (by simp) (Steps.var "X" 1)

/-- Witness for C7: a concrete occurs-checked unification (`X = a`) applied
through the theorem yields an acyclic environment. -/
theorem c7_occurs_check_safety_witness : Acyclic ⟨[(1, .atom "a")]⟩ :=
  c7_occurs_check_safety.1 9 (.var "X" 1) (.atom "a") ⟨[]⟩ ⟨[]⟩ true
    ⟨[(1, .atom "a")]⟩ ⟨[1]⟩ (by intro i u h; simp [envGet] at h) rfl

/-- C1 (code bug).  Scenario B of the spec: with the two `append` clauses
loaded, the query `append([1,2], [3,4], Z)` should yield exactly one
solution with `Z = [1,2,3,4]`.  Because `Engine._solve` unifies the goal
with the stored clause head without renaming its variables
(`utils/helpers.py` has `rename_variables` but the engine never calls it),
the second use of the recursive clause collides with the bindings made by
the first use, and the engine yields NO solutions. -/
theorem c1_append_scenario_yields_no_solutions :
    query coreRegistry false
      (kbLoad
        [⟨"append", [.atom "[]", .var "L" 1, .var "L" 1], []⟩,
         ⟨"append",
          [.comp "." [.var "H" 2, .var "T" 3], .var "L" 4,
           .comp "." [.var "H" 2, .var "R" 5]],
          [.comp "append" [.var "T" 3, .var "L" 4, .var "R" 5]]⟩])
      30
      [.comp "append"
        [.comp "." [.num 1, .comp "." [.num 2, .atom "[]"]],
         .comp "." [.num 3, .comp "." [.num 4, .atom "[]"]],
         .var "Z" 6]]
      = some [] := rfl

/-- C2 (code bug).  The resolver selects candidate clauses without renaming
their variables: with KB `q(1). q(2). p(X) :- q(X).`, the query
`p(A), p(B)` yields only the two aliased solutions `A = B = 1` and
`A = B = 2` (the stored clause variable `X`, id 3, is shared between both
selections of the `p/1` rule), instead of the four solutions fresh
renaming would give. -/
theorem c2_clause_variables_not_renamed :
    query coreRegistry false
      (kbLoad
        [⟨"q", [.num 1], []⟩,
         ⟨"q", [.num 2], []⟩,
         ⟨"p", [.var "X" 3], [.comp "q" [.var "X" 3]]⟩])
      30
      [.comp "p" [.var "A" 1], .comp "p" [.var "B" 2]]
      = some [⟨[(1, .var "X" 3), (3, .num 1), (2, .num 1)]⟩,
              ⟨[(1, .var "X" 3), (3, .num 2), (2, .num 2)]⟩] := rfl

/-! ## Undefined predicates fail silently -/

theorem find_addToIndices_ne {l : List (PredKey × Index)} {k key : PredKey} {c : Clause}
    (hne : key ≠ k) :
    (addToIndices l key c).find? (fun p => p.1 == k) = l.find? (fun p => p.1 == k) := by
  induction l with
  | nil =>
    have hb : (key == k) = false := beq_eq_false_iff_ne.mpr hne
    simp [addToIndices, List.find?, hb]
  | cons hd tl ih =>
    obtain ⟨k', idx⟩ := hd
    by_cases hk : k' = key
    · subst hk
      have hb : (k' == k) = false := beq_eq_false_iff_ne.mpr hne
      simp [addToIndices, List.find?, hb]
    · simp only [addToIndices, if_neg hk, List.find?]
      by_cases hkk : k' = k
      · subst hkk; simp
      · have hb : (k' == k) = false := beq_eq_false_iff_ne.mpr hkk
        simp [hb, ih]

theorem indices_find_kbLoad {cs : List Clause} {k : PredKey}
    (h : ∀ c ∈ cs, (c.functor, c.hargs.length) ≠ k) :
    ((kbLoad cs).indices.find? (fun p => p.1 == k)) = none := by
  suffices H : ∀ (kb : KnowledgeBase),
      kb.indices.find? (fun p => p.1 == k) = none →
      (cs.foldl kbAdd kb).indices.find? (fun p => p.1 == k) = none by
    exact H emptyKB (by simp [emptyKB, List.find?])
  induction cs with
  | nil => intro kb hkb; simpa using hkb
  | cons c rest ih =>
    intro kb hkb
    simp only [List.foldl_cons]
    refine ih (fun c' hc' => h c' (by simp [hc'])) (kbAdd kb c) ?_
    show (addToIndices kb.indices (c.functor, c.hargs.length) c).find?
      (fun p => p.1 == k) = none
    rw [find_addToIndices_ne (h c (by simp))]
    exact hkb

/-- C10.  A goal whose `(functor, arity)` is neither a registered builtin
nor a predicate of the knowledge base yields an empty solution stream:
`query` terminates normally with zero solutions and raises no error. -/
theorem c10_undefined_predicate_fails_silently
    (reg : Registry) (oc : Bool) (cs : List Clause) (g : String) (args : List Term)
    (f : Nat)
    (hb : isBuiltin reg g args.length = false)
    (hkb : ∀ c ∈ cs, (c.functor, c.hargs.length) ≠ (g, args.length)) :
    query reg oc (kbLoad cs) (f + 1) [.comp g args] = some [] := by
  have hfind : ((kbLoad cs).indices.find? (fun p => p.1 == (g, args.length))) = none :=
    indices_find_kbLoad hkb
  show solve reg oc (kbLoad cs) (f + 1) [.comp g args] ⟨[]⟩ ⟨[]⟩ = some []
  simp only [solve, hb, Bool.false_eq_true, if_false]
  rw [show kbCandidates (kbLoad cs) g args = [] by
    simp [kbCandidates, hfind]]
  simp [solveClauses]

/-- Witness for C10: `foo/1` is not a core builtin and not among the loaded
clauses, so the query fails silently. -/
theorem c10_undefined_predicate_fails_silently_witness :
    query coreRegistry false
      (kbLoad [⟨"parent", [.atom "tom", .atom "bob"], []⟩]) 5
      [.comp "foo" [.atom "a"]] = some [] :=
  c10_undefined_predicate_fails_silently coreRegistry false
    [⟨"parent", [.atom "tom", .atom "bob"], []⟩] "foo" [.atom "a"] 4
    rfl (by intro c hc; simp at hc; subst hc; simp)

/-! ## The first-argument index: canonical form -/

theorem mem_foldl_keys (cs : List Clause) (k : IdxKey) :
    ∀ acc : List IdxKey,
      (k ∈ cs.foldl
        (fun acc c => if firstArgKey c.hargs ∈ acc then acc else acc ++ [firstArgKey c.hargs])
        acc)
      ↔ k ∈ acc ∨ ∃ c ∈ cs, firstArgKey c.hargs = k := by
  induction cs with
  | nil => intro acc; simp
  | cons c rest ih =>
    intro acc
    simp only [List.foldl_cons]
    rw [ih]
    by_cases hc : firstArgKey c.hargs ∈ acc
    · rw [if_pos hc]
      constructor
      · rintro (h | h)
        · exact Or.inl h
        · exact Or.inr (by obtain ⟨c', h1, h2⟩ := h; exact ⟨c', by simp [h1], h2⟩)
      · rintro (h | ⟨c', hc', hk⟩)
        · exact Or.inl h
        · rcases List.mem_cons.mp hc' with rfl | hmem
          · exact Or.inl (hk ▸ hc)
          · exact Or.inr ⟨c', hmem, hk⟩
    · rw [if_neg hc]
      constructor
      · rintro (h | h)
        · rcases List.mem_append.mp h with h' | h'
          · exact Or.inl h'
          · exact Or.inr ⟨c, by simp, (List.mem_singleton.mp h').symm⟩
        · exact Or.inr (by obtain ⟨c', h1, h2⟩ := h; exact ⟨c', by simp [h1], h2⟩)
      · rintro (h | ⟨c', hc', hk⟩)
        · exact Or.inl (List.mem_append.mpr (Or.inl h))
        · rcases List.mem_cons.mp hc' with rfl | hmem
          · exact Or.inl (List.mem_append.mpr (Or.inr (by simp [hk])))
          · exact Or.inr ⟨c', hmem, hk⟩

theorem mem_firstOccKeys {cs : List Clause} {k : IdxKey} :
    k ∈ firstOccKeys cs ↔ ∃ c ∈ cs, firstArgKey c.hargs = k := by
  rw [firstOccKeys, mem_foldl_keys]
  simp

theorem filter_eq_nil_of_not_mem_keys {cs : List Clause} {k : IdxKey}
    (h : k ∉ firstOccKeys cs) :
    cs.filter (fun c => firstArgKey c.hargs == k) = [] := by
  rw [List.filter_eq_nil_iff]
  intro c hc
  simp only [beq_iff_eq]
  intro hk
  exact h (mem_firstOccKeys.mpr ⟨c, hc, hk⟩)

theorem firstOccKeys_nodup (cs : List Clause) : (firstOccKeys cs).Nodup := by
  suffices H : ∀ acc : List IdxKey, acc.Nodup →
      (cs.foldl
        (fun acc c => if firstArgKey c.hargs ∈ acc then acc else acc ++ [firstArgKey c.hargs])
        acc).Nodup by
    exact H [] List.nodup_nil
  induction cs with
  | nil => intro acc h; simpa using h
  | cons c rest ih =>
    intro acc h
    simp only [List.foldl_cons]
    by_cases hc : firstArgKey c.hargs ∈ acc
    · rw [if_pos hc]; exact ih acc h
    · rw [if_neg hc]
      exact ih _ (by simp [List.nodup_append, h, hc])

theorem appendBucket_map (K : List IdxKey) (F : IdxKey → List Clause)
    (key : IdxKey) (c : Clause) (hnd : K.Nodup) :
    appendBucket (K.map (fun k => (k, F k))) key c =
      if key ∈ K then
        K.map (fun k => (k, if k = key then F k ++ [c] else F k))
      else K.map (fun k => (k, F k)) ++ [(key, [c])] := by
  induction K with
  | nil => simp [appendBucket]
  | cons k0 rest ih =>
    rw [List.nodup_cons] at hnd
    by_cases hk : k0 = key
    · subst hk
      have htail : List.map (fun k => (k, if k = k0 then F k ++ [c] else F k)) rest
          = List.map (fun k => (k, F k)) rest := by
        apply List.map_congr_left
        intro k hkr
        have hne : k ≠ k0 := fun h => hnd.1 (h ▸ hkr)
        simp [hne]
      simp [appendBucket, htail]
    · simp only [List.map_cons, appendBucket, if_neg hk, ih hnd.2]
      by_cases hmem : key ∈ rest
      · rw [if_pos hmem, if_pos (List.mem_cons.mpr (Or.inr hmem))]
      · rw [if_neg hmem, if_neg (by
          intro hx
          rcases List.mem_cons.mp hx with h' | h'
          · exact hk h'.symm
          · exact hmem h')]
        simp

/-- The index built from a clause list, in canonical form: one bucket per
first-argument key, keys in first-occurrence order, each bucket the
insertion-ordered subsequence of clauses with that key. -/
theorem idx_by_key (cs : List Clause) :
    (cs.foldl idxAdd ⟨[]⟩).by_key
      = (firstOccKeys cs).map
          (fun k => (k, cs.filter (fun c => firstArgKey c.hargs == k))) := by
  induction cs using List.reverseRecOn with
  | nil => simp [firstOccKeys]
  | append_singleton cs c ih =>
    rw [List.foldl_append]
    simp only [List.foldl_cons, List.foldl_nil]
    rw [show (idxAdd (cs.foldl idxAdd ⟨[]⟩) c).by_key
        = appendBucket (cs.foldl idxAdd ⟨[]⟩).by_key (firstArgKey c.hargs) c from rfl]
    rw [ih, appendBucket_map _ _ _ _ (firstOccKeys_nodup cs)]
    have hkeys : firstOccKeys (cs ++ [c])
        = if firstArgKey c.hargs ∈ firstOccKeys cs then firstOccKeys cs
          else firstOccKeys cs ++ [firstArgKey c.hargs] := by
      simp [firstOccKeys, List.foldl_append]
    by_cases hmem : firstArgKey c.hargs ∈ firstOccKeys cs
    · rw [if_pos hmem, hkeys, if_pos hmem]
      apply List.map_congr_left
      intro k hk
      rw [List.filter_append]
      by_cases hkc : k = firstArgKey c.hargs
      · simp [hkc]
      · have hb : (firstArgKey c.hargs == k) = false :=
          beq_eq_false_iff_ne.mpr (fun h => hkc h.symm)
        simp [hkc, List.filter, hb]
    · rw [if_neg hmem, hkeys, if_neg hmem, List.map_append]
      congr 1
      · apply List.map_congr_left
        intro k hk
        rw [List.filter_append]
        have hkc : ¬ k = firstArgKey c.hargs := fun h => hmem (h ▸ hk)
        have hb : (firstArgKey c.hargs == k) = false :=
          beq_eq_false_iff_ne.mpr (fun h => hkc h.symm)
        simp [List.filter, hb]
      · simp only [List.map_cons, List.map_nil]
        rw [List.filter_append, filter_eq_nil_of_not_mem_keys hmem]
        simp [List.filter]

theorem dictGet_map (K : List IdxKey) (F : IdxKey → List Clause) (k0 : IdxKey) :
    dictGet (K.map (fun k => (k, F k))) k0
      = if k0 ∈ K then some (F k0) else none := by
  induction K with
  | nil => simp [dictGet, List.find?]
  | cons k1 rest ih =>
    by_cases hk : k1 = k0
    · subst hk
      simp [dictGet, List.find?]
    · have hb : (k1 == k0) = false := beq_eq_false_iff_ne.mpr hk
      simp only [List.map_cons, dictGet, List.find?, hb]
      rw [show (match List.find? (fun p => p.1 == k0) (List.map (fun k => (k, F k)) rest) with
          | some p => some p.2
          | none => none) = dictGet (List.map (fun k => (k, F k)) rest) k0 from rfl]
      rw [ih]
      by_cases hmem : k0 ∈ rest
      · rw [if_pos hmem, if_pos (List.mem_cons.mpr (Or.inr hmem))]
      · rw [if_neg hmem, if_neg (by
          intro hx
          rcases List.mem_cons.mp hx with h' | h'
          · exact hk h'.symm
          · exact hmem h')]

theorem dictGet_idx_getD (cs : List Clause) (k : IdxKey) :
    (dictGet (cs.foldl idxAdd ⟨[]⟩).by_key k).getD []
      = cs.filter (fun c => firstArgKey c.hargs == k) := by
  rw [idx_by_key, dictGet_map]
  by_cases hmem : k ∈ firstOccKeys cs
  · simp [hmem]
  · simp [hmem, filter_eq_nil_of_not_mem_keys hmem]

/-- C3 counterexample.  With clauses `p(a,1). p(b,2). p(a,3).` (atom first
arguments `a`, `b`, `a`) and a goal whose first argument is a variable, the
index yields the clauses grouped by key — `p(a,1), p(a,3), p(b,2)` — which
is NOT the insertion order `p(a,1), p(b,2), p(a,3)` the claim states. -/
theorem c3_counterexample :
    idxCandidates
      ([(⟨"p", [.atom "a", .num 1], []⟩ : Clause),
        ⟨"p", [.atom "b", .num 2], []⟩,
        ⟨"p", [.atom "a", .num 3], []⟩].foldl idxAdd ⟨[]⟩)
      [.var "X" 9, .var "Y" 10]
      = [⟨"p", [.atom "a", .num 1], []⟩,
         ⟨"p", [.atom "a", .num 3], []⟩,
         ⟨"p", [.atom "b", .num 2], []⟩] ∧
    ([(⟨"p", [.atom "a", .num 1], []⟩ : Clause),
      ⟨"p", [.atom "a", .num 3], []⟩,
      ⟨"p", [.atom "b", .num 2], []⟩]
      ≠ [⟨"p", [.atom "a", .num 1], []⟩,
         ⟨"p", [.atom "b", .num 2], []⟩,
         ⟨"p", [.atom "a", .num 3], []⟩]) := by
  refine ⟨rfl, ?_⟩
  intro h
  have h1 := List.cons.inj h
  have h2 := List.cons.inj h1.2
  have h3 : (⟨"p", [.atom "a", .num 3], []⟩ : Clause)
      = ⟨"p", [.atom "b", .num 2], []⟩ := h2.1
  have h4 := congrArg Clause.hargs h3
  simp only [List.cons.injEq] at h4
  have h5 : "a" = "b" := Term.atom.inj h4.1
  exact absurd h5 (by decide)

/-- C3 (amended).  For an index built from any clause list: a goal with a
concrete atom first argument receives the insertion-ordered matching-key
clauses followed by the insertion-ordered wildcard-keyed ones (as the
claim states); but a goal with a variable first argument receives the
clauses grouped bucket-by-bucket — keys in first-occurrence order,
insertion order within each bucket — which coincides with full insertion
order only when no key repeats after a different key intervenes. -/
theorem c3_index_candidates_order (cs : List Clause) (goalArgs : List Term) :
    (∀ nm : String, firstArgKey goalArgs = ("a", nm) →
      idxCandidates (cs.foldl idxAdd ⟨[]⟩) goalArgs
        = cs.filter (fun c => firstArgKey c.hargs == ("a", nm))
          ++ cs.filter (fun c => firstArgKey c.hargs == ("*", "_"))) ∧
    (firstArgKey goalArgs = ("*", "_") →
      idxCandidates (cs.foldl idxAdd ⟨[]⟩) goalArgs = groupedClauses cs) := by
  constructor
  · intro nm hk
    unfold idxCandidates
    rw [hk]
    rw [if_neg (by simp)]
    rw [dictGet_idx_getD, dictGet_idx_getD]
  · intro hk
    unfold idxCandidates
    rw [hk, if_pos rfl, idx_by_key]
    unfold groupedClauses
    rw [List.map_map]
    rfl

/-- Witness for C3's amended theorem: on the counterexample clause list,
an atom-keyed goal gets the matching clauses then the wildcards, and a
variable goal gets the grouped order. -/
theorem c3_index_candidates_order_witness :
    firstArgKey [Term.atom "a", Term.num 7] = ("a", "a") ∧
    idxCandidates
      ([(⟨"p", [.atom "a", .num 1], []⟩ : Clause),
        ⟨"p", [.atom "b", .num 2], []⟩,
        ⟨"p", [.atom "a", .num 3], []⟩].foldl idxAdd ⟨[]⟩)
      [Term.atom "a", Term.num 7]
      = [⟨"p", [.atom "a", .num 1], []⟩, ⟨"p", [.atom "a", .num 3], []⟩] :=
  ⟨rfl, by
    rw [(c3_index_candidates_order
      [⟨"p", [.atom "a", .num 1], []⟩, ⟨"p", [.atom "b", .num 2], []⟩,
       ⟨"p", [.atom "a", .num 3], []⟩]
      [Term.atom "a", Term.num 7]).1 "a" rfl]
    rfl⟩

/-! ## Trail unwinding -/

theorem delPairs_setPairs_fresh {l : List (Nat × Term)} {i : Nat} {t : Term}
    (h : ∀ p ∈ l, p.1 ≠ i) : delPairs (setPairs l i t) i = l := by
  induction l with
  | nil => simp [setPairs, delPairs]
  | cons hd tl ih =>
    obtain ⟨j, u⟩ := hd
    have hj : j ≠ i := h (j, u) (by simp)
    simp only [setPairs, if_neg hj, delPairs]
    rw [ih (fun p hp => h p (by simp [hp]))]

theorem unwind_applyBinds (bs : List (Nat × Term)) :
    ∀ (env : Env) (tr0 : Trail), FreshBinds bs env →
      unwind (applyBinds bs env tr0).2 (applyBinds bs env tr0).1 = unwind tr0 env := by
  induction bs with
  | nil => intro env tr0 _; rfl
  | cons b rest ih =>
    obtain ⟨i, t⟩ := b
    intro env tr0 hfresh
    obtain ⟨hi, hrest⟩ := hfresh
    show unwind (applyBinds rest (envSet env i t) (trailPush tr0 i)).2
        (applyBinds rest (envSet env i t) (trailPush tr0 i)).1 = unwind tr0 env
    rw [ih _ _ hrest]
    show unwindList (i :: tr0.stack) (envSet env i t) = unwindList tr0.stack env
    simp only [unwindList]
    congr 1
    show Env.mk (delPairs (setPairs env.bindings i t) i) = env
    rw [delPairs_setPairs_fresh ((envGet_eq_none_iff env i).mp hi)]

theorem unwind_removes (st : List Nat) :
    ∀ env : Env, KeysNodup env → ∀ j,
      envGet (unwindList st env) j = if j ∈ st then none else envGet env j := by
  induction st with
  | nil => intro env _ j; simp [unwindList]
  | cons i rest ih =>
    intro env hnd j
    show envGet (unwindList rest (envDel env i)) j = _
    rw [ih (envDel env i) (keysNodup_envDel env i hnd) j]
    by_cases hjr : j ∈ rest
    · simp [hjr]
    · by_cases hji : j = i
      · subst hji
        rw [envGet_envDel_self env j hnd]
        simp [hjr]
      · rw [envGet_envDel_ne env i j hji]
        simp [hjr, hji]

/-- C5 counterexample.  The claim fails for a bind that overwrites an
existing binding: starting from `{1 ↦ a}`, binding variable 1 to `b` (with
the id pushed on a fresh trail) and unwinding deletes the id outright, and
the environment ends up empty instead of restored to `{1 ↦ a}`. -/
theorem c5_counterexample :
    applyBinds [(1, .atom "b")] ⟨[(1, .atom "a")]⟩ ⟨[]⟩
      = (⟨[(1, .atom "b")]⟩, ⟨[1]⟩) ∧
    unwind ⟨[1]⟩ ⟨[(1, .atom "b")]⟩ = ⟨[]⟩ ∧
    ¬ envEquiv ⟨[]⟩ ⟨[(1, .atom "a")]⟩ := by
  refine ⟨rfl, rfl, ?_⟩
  intro h
  have h1 := h 1
  simp [envGet, List.find?] at h1

/-- C5 (amended).  After any sequence of successful binds on a fresh trail,
`trail.unwind(env)` restores the environment exactly — provided each bound
variable was unbound in the environment at the moment of its bind (the
discipline `unify` maintains).  Moreover, in general, unwind removes
exactly the ids on the trail's stack. -/
theorem c5_unwind_restores (bs : List (Nat × Term)) (env : Env)
    (hfresh : FreshBinds bs env) :
    unwind (applyBinds bs env ⟨[]⟩).2 (applyBinds bs env ⟨[]⟩).1 = env ∧
    (∀ (env2 : Env) (tr : Trail), KeysNodup env2 → ∀ j,
      envGet (unwind tr env2) j = if j ∈ tr.stack then none else envGet env2 j) :=
  ⟨unwind_applyBinds bs env ⟨[]⟩ hfresh,
   fun env2 tr hnd j => unwind_removes tr.stack env2 hnd j⟩

/-- Witness for C5: two fresh binds over `{5 ↦ z}` unwind back to exactly
`{5 ↦ z}`. -/
theorem c5_unwind_restores_witness :
    unwind (applyBinds [(1, .atom "a"), (2, .atom "b")] ⟨[(5, .atom "z")]⟩ ⟨[]⟩).2
      (applyBinds [(1, .atom "a"), (2, .atom "b")] ⟨[(5, .atom "z")]⟩ ⟨[]⟩).1
      = ⟨[(5, .atom "z")]⟩ :=
  (c5_unwind_restores [(1, .atom "a"), (2, .atom "b")] ⟨[(5, .atom "z")]⟩
    ⟨rfl, rfl, trivial⟩).1

/-! ## Arithmetic builtins: errors fail the branch silently -/

theorem arithCompare_error_left {F : FloatOps} {cmp : ℚ → ℚ → Bool} {fuel : Nat}
    {lhs rhs : Term} {env : Env} {tr : Trail} {oc : Bool} {e : EvalErr}
    (h : evaluate F fuel lhs env = some (.error e)) :
    arithCompare F cmp [lhs, rhs] oc fuel env tr = some [] := by
  simp [arithCompare, h]

theorem arithCompare_error_right {F : FloatOps} {cmp : ℚ → ℚ → Bool} {fuel : Nat}
    {lhs rhs : Term} {env : Env} {tr : Trail} {oc : Bool} {e : EvalErr} {x : ℚ}
    (hx : evaluate F fuel lhs env = some (.ok x))
    (h : evaluate F fuel rhs env = some (.error e)) :
    arithCompare F cmp [lhs, rhs] oc fuel env tr = some [] := by
  simp [arithCompare, hx, h]

/-- C6.  Every arithmetic builtin (`is/2` and the six comparisons) treats
an evaluator exception (`ValueError`/`ZeroDivisionError`: unbound variable,
unknown atom or functor, wrong arity, zero divisor, negative sqrt,
non-positive log) as silent failure of the branch: the builtin returns
normally with no yielded environment (`some []` — no exception reaches the
caller, and the error path never touches the environment: for `is/2` it
returns before `unify` runs, and the comparisons never bind at all). -/
theorem c6_arith_errors_fail_silently (F : FloatOps) (fuel : Nat) (lhs rhs : Term)
    (env : Env) (tr : Trail) (oc : Bool) (e : EvalErr) :
    (evaluate F fuel rhs env = some (.error e) →
      is_2 F [lhs, rhs] oc fuel env tr = some []) ∧
    (evaluate F fuel lhs env = some (.error e) →
      arithmetic_equal_2 F [lhs, rhs] oc fuel env tr = some [] ∧
      arithmetic_not_equal_2 F [lhs, rhs] oc fuel env tr = some [] ∧
      less_than_2 F [lhs, rhs] oc fuel env tr = some [] ∧
      less_equal_2 F [lhs, rhs] oc fuel env tr = some [] ∧
      greater_than_2 F [lhs, rhs] oc fuel env tr = some [] ∧
      greater_equal_2 F [lhs, rhs] oc fuel env tr = some []) ∧
    (∀ x : ℚ, evaluate F fuel lhs env = some (.ok x) →
      evaluate F fuel rhs env = some (.error e) →
      arithmetic_equal_2 F [lhs, rhs] oc fuel env tr = some [] ∧
      arithmetic_not_equal_2 F [lhs, rhs] oc fuel env tr = some [] ∧
      less_than_2 F [lhs, rhs] oc fuel env tr = some [] ∧
      less_equal_2 F [lhs, rhs] oc fuel env tr = some [] ∧
      greater_than_2 F [lhs, rhs] oc fuel env tr = some [] ∧
      greater_equal_2 F [lhs, rhs] oc fuel env tr = some []) := by
  refine ⟨?_, ?_, ?_⟩
  · intro h
    simp [is_2, h]
  · intro h
    exact ⟨arithCompare_error_left h, arithCompare_error_left h,
      arithCompare_error_left h, arithCompare_error_left h,
      arithCompare_error_left h, arithCompare_error_left h⟩
  · intro x hx h
    exact ⟨arithCompare_error_right hx h, arithCompare_error_right hx h,
      arithCompare_error_right hx h, arithCompare_error_right hx h,
      arithCompare_error_right hx h, arithCompare_error_right hx h⟩

/-- Witness for C6: `X is 1/0` fails silently (zero divisor), and
`1 < 1/0` fails silently too. -/
theorem c6_arith_errors_fail_silently_witness :
    is_2 F0 [.var "X" 1, .comp "/" [.num 1, .num 0]] false 9 ⟨[]⟩ ⟨[]⟩ = some [] ∧
    less_than_2 F0 [.num 1, .comp "/" [.num 1, .num 0]] false 9 ⟨[]⟩ ⟨[]⟩ = some [] :=
  ⟨(c6_arith_errors_fail_silently F0 9 (.var "X" 1) (.comp "/" [.num 1, .num 0])
      ⟨[]⟩ ⟨[]⟩ false .zeroDivision).1 rfl,
   ((c6_arith_errors_fail_silently F0 9 (.num 1) (.comp "/" [.num 1, .num 0])
      ⟨[]⟩ ⟨[]⟩ false .zeroDivision).2.2 1 rfl rfl).2.2.1⟩

/-! ## Variable identity -/

/-- C8 counterexample.  Python structural equality (`==`, the dataclass
`__eq__` with `id: compare=False`) declares `Variable("X", 1)` and
`Variable("X", 2)` equal as terms although their ids differ — so "equal as
terms iff ids match" is false. -/
theorem c8_counterexample :
    pyEq (.var "X" 1) (.var "X" 2) = true ∧ (1 : Nat) ≠ 2 := by
  constructor
  · simp [pyEq]
  · decide

/-- C8 (amended).  The unifier identifies variables by id alone: two
occurrences with the same (unbound) id unify trivially with no binding,
whatever their names; two distinct ids unify by creating a binding even
when the names coincide.  Python term equality (`==`), by contrast,
compares variables by name and ignores the id. -/
theorem c8_variable_identity (n1 n2 nm : String) (i j : Nat) (env : Env) (tr : Trail)
    (oc : Bool) (f : Nat) (hunb : envGet env i = none) (hne : i ≠ j) :
    unify (f + 1) (.var n1 i) (.var n2 i) env tr oc = some (true, env, tr) ∧
    unify (f + 2) (.var nm i) (.var nm j) ⟨[]⟩ ⟨[]⟩ oc
      = some (true, ⟨[(i, .var nm j)]⟩, ⟨[i]⟩) ∧
    pyEq (.var n1 i) (.var n2 j) = (n1 == n2) := by
  refine ⟨?_, ?_, by simp [pyEq]⟩
  · rw [unify_succ]
    rw [show deref f (.var n1 i) env = some (.var n1 i) by simp [deref, hunb]]
    rw [show deref f (.var n2 i) env = some (.var n2 i) by simp [deref, hunb]]
    simp [unifyStep]
  · rw [unify_succ]
    rw [show deref (f + 1) (.var nm i) ⟨[]⟩ = some (.var nm i) by
      simp [deref, envGet, List.find?]]
    rw [show deref (f + 1) (.var nm j) ⟨[]⟩ = some (.var nm j) by
      simp [deref, envGet, List.find?]]
    simp only [unifyStep, if_neg hne]
    cases oc with
    | false =>
      simp [bindCheck, bind, envSet, setPairs, trailPush]
    | true =>
      have hocc : occursIn (f + 1) i (.var nm j) ⟨[]⟩ = some false := by
        simp only [occursIn]
        rw [show deref f (.var nm j) ⟨[]⟩ = some (.var nm j) by
          simp [deref, envGet, List.find?]]
        simp [hne]
      simp [bindCheck, hocc, bind, envSet, setPairs, trailPush]

/-- Witness for C8: ids 1 and 2, names "A"/"B"/"S". -/
theorem c8_variable_identity_witness :
    unify 2 (.var "A" 1) (.var "B" 1) ⟨[]⟩ ⟨[]⟩ true = some (true, ⟨[]⟩, ⟨[]⟩) :=
  (c8_variable_identity "A" "B" "S" 1 2 ⟨[]⟩ ⟨[]⟩ true 1 rfl (by decide)).1

/-! ## Solution independence (the heap model) -/

theorem storeInv_refl (st : Store) (cur : Nat) : StoreInv st st cur :=
  ⟨le_refl _, fun _ _ _ => rfl⟩

theorem storeInv_trans {st st1 st2 : Store} {cur : Nat}
    (h1 : StoreInv st st1 cur) (h2 : StoreInv st1 st2 cur) : StoreInv st st2 cur :=
  ⟨le_trans h1.1 h2.1, fun j hj hne =>
    (h2.2 j (lt_of_lt_of_le hj h1.1) hne).trans (h1.2 j hj hne)⟩

/-- A later phase that only protects a cell at or past the first heap's end
still preserves every cell the first phase preserved. -/
theorem storeInv_compose_inner {st stA st2 : Store} {cur lix : Nat}
    (h1 : StoreInv st stA cur) (h2 : StoreInv stA st2 lix)
    (hlix : st.length ≤ lix) : StoreInv st st2 cur :=
  ⟨le_trans h1.1 h2.1, fun j hj hne =>
    (h2.2 j (lt_of_lt_of_le hj h1.1)
      (Nat.ne_of_lt (lt_of_lt_of_le hj hlix))).trans (h1.2 j hj hne)⟩

/-- Allocating `env.copy()` at the end of the heap (and immediately
overwriting the fresh cell) touches no pre-existing cell at all. -/
theorem storeInv_alloc (st : Store) (env env' : Env) (cur : Nat) :
    StoreInv st ((st ++ [env]).set st.length env') cur := by
  constructor
  · simp only [List.length_set, List.length_append, List.length_singleton]
    omega
  · intro j hj _
    rw [List.getElem?_set_ne (Nat.ne_of_lt hj).symm]
    exact List.getElem?_append_left hj

theorem storeInv_append (st : Store) (e : Env) (cur : Nat) : StoreInv st (st ++ [e]) cur := by
  constructor
  · simp only [List.length_append, List.length_singleton]
    omega
  · intro j hj _
    exact List.getElem?_append_left hj

/-- In-place mutation of the current environment object is exactly the
write the frame permits. -/
theorem storeInv_set_cur (st : Store) (e : Env) (cur : Nat) : StoreInv st (st.set cur e) cur := by
  constructor
  · simp only [List.length_set]
    omega
  · intro j _ hne
    exact List.getElem?_set_ne (fun h => hne h.symm)

theorem solsInv_nil (st st' : Store) : SolsInv st st' [] :=
  fun _ hp => absurd hp (by simp)

theorem solsInv_weaken {st0 st1 st' : Store} {sols : List (Nat × Env)}
    (h : SolsInv st1 st' sols) (hle : st0.length ≤ st1.length) : SolsInv st0 st' sols :=
  fun p hp => ⟨le_trans hle (h p hp).1, (h p hp).2.1, (h p hp).2.2⟩

/-- Solutions recorded in fresh cells survive any later phase whose only
permitted write is a cell older than all of them. -/
theorem solsInv_extend {st1 st2 st3 : Store} {prot : Nat} {sols : List (Nat × Env)}
    (h : SolsInv st1 st2 sols) (h2 : StoreInv st2 st3 prot)
    (hprot : prot < st1.length) : SolsInv st1 st3 sols :=
  fun p hp =>
    ⟨(h p hp).1, lt_of_lt_of_le (h p hp).2.1 h2.1,
     (h2.2 p.1 (h p hp).2.1
        (Nat.ne_of_gt (lt_of_lt_of_le hprot (h p hp).1))).trans (h p hp).2.2⟩

theorem solsInv_append {st st' : Store} {s1 s2 : List (Nat × Env)}
    (h1 : SolsInv st st' s1) (h2 : SolsInv st st' s2) : SolsInv st st' (s1 ++ s2) := by
  intro p hp
  rcases List.mem_append.mp hp with hp | hp
  · exact h1 p hp
  · exact h2 p hp

theorem mem_ite_singleton {α : Type} {b : Bool} {x p : α}
    (hp : p ∈ if b then [x] else ([] : List α)) : p = x := by
  split at hp
  · exact List.mem_singleton.mp hp
  · exact absurd hp (by simp)

/-- `true_0H` satisfies the frame: no mutation, yields the current object. -/
theorem true_0H_spec (args : List Term) (oc : Bool) (fuel : Nat) (st : Store)
    (cur : Nat) (tr : Trail) (st1 : Store) (results : List (Nat × Trail))
    (h : true_0H args oc fuel st cur tr = some (st1, results)) :
    StoreInv st st1 cur ∧ ∀ p ∈ results, p.1 = cur := by
  simp only [true_0H, Option.some.injEq, Prod.mk.injEq] at h
  obtain ⟨rfl, rfl⟩ := h
  refine ⟨storeInv_refl _ _, ?_⟩
  intro p hp
  rw [List.mem_singleton.mp hp]

theorem fail_0H_spec (args : List Term) (oc : Bool) (fuel : Nat) (st : Store)
    (cur : Nat) (tr : Trail) (st1 : Store) (results : List (Nat × Trail))
    (h : fail_0H args oc fuel st cur tr = some (st1, results)) :
    StoreInv st st1 cur ∧ ∀ p ∈ results, p.1 = cur := by
  simp only [fail_0H, Option.some.injEq, Prod.mk.injEq] at h
  obtain ⟨rfl, rfl⟩ := h
  exact ⟨storeInv_refl _ _, fun p hp => absurd hp (by simp)⟩

/-- `equal_2H` only writes the current object (in place) and yields it. -/
theorem equal_2H_spec (args : List Term) (oc : Bool) (fuel : Nat) (st : Store)
    (cur : Nat) (tr : Trail) (st1 : Store) (results : List (Nat × Trail))
    (h : equal_2H args oc fuel st cur tr = some (st1, results)) :
    StoreInv st st1 cur ∧ ∀ p ∈ results, p.1 = cur := by
  rcases args with _ | ⟨lhs, _ | ⟨rhs, _ | ⟨x, xs⟩⟩⟩ <;>
    simp only [equal_2H, Option.some.injEq, Prod.mk.injEq] at h
  case cons.cons.nil =>
    split at h
    · exact Option.noConfusion h
    split at h
    · exact Option.noConfusion h
    · simp only [Option.some.injEq, Prod.mk.injEq] at h
      obtain ⟨rfl, rfl⟩ := h
      refine ⟨storeInv_set_cur _ _ _, ?_⟩
      intro p hp
      rw [List.mem_singleton.mp hp]
    · simp only [Option.some.injEq, Prod.mk.injEq] at h
      obtain ⟨rfl, rfl⟩ := h
      exact ⟨storeInv_set_cur _ _ _, fun p hp => absurd hp (by simp)⟩
  all_goals
    obtain ⟨rfl, rfl⟩ := h
    exact ⟨storeInv_refl _ _, fun p hp => absurd hp (by simp)⟩

/-- `not_equal_2H` only allocates a throwaway copy and yields the current
object on failure of the attempt. -/
theorem not_equal_2H_spec (args : List Term) (oc : Bool) (fuel : Nat) (st : Store)
    (cur : Nat) (tr : Trail) (st1 : Store) (results : List (Nat × Trail))
    (h : not_equal_2H args oc fuel st cur tr = some (st1, results)) :
    StoreInv st st1 cur ∧ ∀ p ∈ results, p.1 = cur := by
  rcases args with _ | ⟨lhs, _ | ⟨rhs, _ | ⟨x, xs⟩⟩⟩ <;>
    simp only [not_equal_2H, Option.some.injEq, Prod.mk.injEq] at h
  case cons.cons.nil =>
    split at h
    · exact Option.noConfusion h
    split at h
    · exact Option.noConfusion h
    · simp only [Option.some.injEq, Prod.mk.injEq] at h
      obtain ⟨rfl, rfl⟩ := h
      exact ⟨storeInv_append _ _ _, fun p hp => absurd hp (by simp)⟩
    · simp only [Option.some.injEq, Prod.mk.injEq] at h
      obtain ⟨rfl, rfl⟩ := h
      refine ⟨storeInv_append _ _ _, ?_⟩
      intro p hp
      rw [List.mem_singleton.mp hp]
  all_goals
    obtain ⟨rfl, rfl⟩ := h
    exact ⟨storeInv_refl _ _, fun p hp => absurd hp (by simp)⟩

/-- The type tests are read-only and yield at most the current object. -/
theorem typeTestH_spec (tv ta tn tc : Bool) (args : List Term) (oc : Bool)
    (fuel : Nat) (st : Store) (cur : Nat) (tr : Trail) (st1 : Store)
    (results : List (Nat × Trail))
    (h : typeTestH tv ta tn tc args oc fuel st cur tr = some (st1, results)) :
    StoreInv st st1 cur ∧ ∀ p ∈ results, p.1 = cur := by
  rcases args with _ | ⟨t, _ | ⟨x, xs⟩⟩ <;>
    simp only [typeTestH, Option.some.injEq, Prod.mk.injEq] at h
  case cons.nil =>
    split at h
    · exact Option.noConfusion h
    · split at h
      · exact Option.noConfusion h
      all_goals
        simp only [Option.some.injEq, Prod.mk.injEq] at h
        obtain ⟨rfl, rfl⟩ := h
        refine ⟨storeInv_refl _ _, ?_⟩
        intro p hp
        rw [mem_ite_singleton hp]
  all_goals
    obtain ⟨rfl, rfl⟩ := h
    exact ⟨storeInv_refl _ _, fun p hp => absurd hp (by simp)⟩

/-- Every builtin of the core registry respects the frame and yields only
the current object. -/
theorem regCallH_spec {g : String} {args : List Term} {oc : Bool} {fuel : Nat}
    {st : Store} {cur : Nat} {tr : Trail} {st1 : Store} {results : List (Nat × Trail)}
    (h : regCallH coreRegistryH g args oc fuel st cur tr = some (st1, results)) :
    StoreInv st st1 cur ∧ ∀ p ∈ results, p.1 = cur := by
  unfold regCallH at h
  split at h
  · simp only [Option.some.injEq, Prod.mk.injEq] at h
    obtain ⟨rfl, rfl⟩ := h
    exact ⟨storeInv_refl _ _, fun p hp => absurd hp (by simp)⟩
  · rename_i q heq
    have hq : q ∈ coreRegistryH := List.mem_of_find?_eq_some heq
    simp only [coreRegistryH, List.mem_cons, List.not_mem_nil, or_false] at hq
    rcases hq with rfl | rfl | rfl | rfl | rfl | rfl | rfl | rfl | rfl
    · exact true_0H_spec args oc fuel st cur tr st1 results h
    · exact fail_0H_spec args oc fuel st cur tr st1 results h
    · exact equal_2H_spec args oc fuel st cur tr st1 results h
    · exact not_equal_2H_spec args oc fuel st cur tr st1 results h
    · exact typeTestH_spec true false false false args oc fuel st cur tr st1 results h
    · exact typeTestH_spec false true true true args oc fuel st cur tr st1 results h
    · exact typeTestH_spec false true false false args oc fuel st cur tr st1 results h
    · exact typeTestH_spec false false true false args oc fuel st cur tr st1 results h
    · exact typeTestH_spec false false false true args oc fuel st cur tr st1 results h

/-- Frame and snapshot invariant of the whole search, by induction on fuel:
a solve starting from a live object `cur` mutates (among pre-existing
cells) only `cur`, and every solution it yields lives in a cell allocated
during the call whose final value is exactly the snapshot recorded when it
was yielded. -/
theorem solveH_frame (oc : Bool) (kb : KnowledgeBase) : ∀ f : Nat,
    (∀ goals cur st tr st' sols,
      solveH coreRegistryH oc kb f goals cur st tr = some (st', sols) →
      cur < st.length → StoreInv st st' cur ∧ SolsInv st st' sols) ∧
    (∀ results rest st cur st' sols,
      solveSeqH coreRegistryH oc kb f results rest st = some (st', sols) →
      (∀ p ∈ results, p.1 = cur) → cur < st.length →
      StoreInv st st' cur ∧ SolsInv st st' sols) ∧
    (∀ cs goal rest cur st st' sols,
      solveClausesH coreRegistryH oc kb f cs goal rest cur st = some (st', sols) →
      cur < st.length → StoreInv st st' cur ∧ SolsInv st st' sols) := by
  intro f
  induction f with
  | zero =>
    refine ⟨?_, ?_, ?_⟩
    · intro goals cur st tr st' sols h hcur
      exact absurd h (by simp [solveH])
    · intro results rest st cur st' sols h hres hcur
      cases results with
      | nil =>
        simp only [solveSeqH, Option.some.injEq, Prod.mk.injEq] at h
        obtain ⟨rfl, rfl⟩ := h
        exact ⟨storeInv_refl _ _, solsInv_nil _ _⟩
      | cons r more => exact absurd h (by simp [solveSeqH])
    · intro cs goal rest cur st st' sols h hcur
      cases cs with
      | nil =>
        simp only [solveClausesH, Option.some.injEq, Prod.mk.injEq] at h
        obtain ⟨rfl, rfl⟩ := h
        exact ⟨storeInv_refl _ _, solsInv_nil _ _⟩
      | cons c cs => exact absurd h (by simp [solveClausesH])
  | succ f ih =>
    obtain ⟨ihS, ihQ, ihC⟩ := ih
    refine ⟨?_, ?_, ?_⟩
    · intro goals cur st tr st' sols h hcur
      cases goals with
      | nil =>
        simp only [solveH] at h
        split at h
        · exact Option.noConfusion h
        · rename_i env henv
          simp only [Option.some.injEq, Prod.mk.injEq] at h
          obtain ⟨rfl, rfl⟩ := h
          refine ⟨storeInv_append st env cur, ?_⟩
          intro p hp
          rw [List.mem_singleton.mp hp]
          refine ⟨le_refl _, ?_, List.getElem?_concat_length st env⟩
          simp only [List.length_append, List.length_singleton]
          omega
      | cons first rest =>
        simp only [solveH] at h
        cases first with
        | var n i => exact Option.noConfusion h
        | atom a => exact Option.noConfusion h
        | num q => exact Option.noConfusion h
        | comp g args =>
          replace h : (if isBuiltinH coreRegistryH g args.length then
              match regCallH coreRegistryH g args oc f st cur tr with
              | none => none
              | some (st1, results) => solveSeqH coreRegistryH oc kb f results rest st1
            else
              solveClausesH coreRegistryH oc kb f (kbCandidates kb g args)
                (.comp g args) rest cur st) = some (st', sols) := h
          split at h
          · split at h
            · exact Option.noConfusion h
            · rename_i st1 results hreg
              obtain ⟨hfr, hres⟩ := regCallH_spec hreg
              obtain ⟨hfr2, hsols⟩ :=
                ihQ results rest st1 cur st' sols h hres (lt_of_lt_of_le hcur hfr.1)
              exact ⟨storeInv_trans hfr hfr2, solsInv_weaken hsols hfr.1⟩
          · exact ihC _ _ _ _ _ _ _ h hcur
    · intro results rest st cur st' sols h hres hcur
      cases results with
      | nil =>
        simp only [solveSeqH, Option.some.injEq, Prod.mk.injEq] at h
        obtain ⟨rfl, rfl⟩ := h
        exact ⟨storeInv_refl _ _, solsInv_nil _ _⟩
      | cons r more =>
        obtain ⟨ix, tr⟩ := r
        have hix : ix = cur := hres (ix, tr) (List.mem_cons_self _ _)
        subst hix
        simp only [solveSeqH] at h
        split at h
        · exact Option.noConfusion h
        · rename_i st1 sols1 hs1
          split at h
          · exact Option.noConfusion h
          · rename_i st2 sols2 hs2
            simp only [Option.some.injEq, Prod.mk.injEq] at h
            obtain ⟨rfl, rfl⟩ := h
            obtain ⟨hf1, hv1⟩ := ihS rest ix st tr _ _ hs1 hcur
            obtain ⟨hf2, hv2⟩ :=
              ihQ more rest st1 ix _ _ hs2
                (fun p hp => hres p (List.mem_cons_of_mem _ hp))
                (lt_of_lt_of_le hcur hf1.1)
            exact ⟨storeInv_trans hf1 hf2,
              solsInv_append (solsInv_extend hv1 hf2 hcur)
                (solsInv_weaken hv2 hf1.1)⟩
    · intro cs goal rest cur st st' sols h hcur
      cases cs with
      | nil =>
        simp only [solveClausesH, Option.some.injEq, Prod.mk.injEq] at h
        obtain ⟨rfl, rfl⟩ := h
        exact ⟨storeInv_refl _ _, solsInv_nil _ _⟩
      | cons c cs =>
        simp only [solveClausesH] at h
        split at h
        · exact Option.noConfusion h
        · rename_i env henv
          split at h
          · exact Option.noConfusion h
          · rename_i env' tr0 hun
            have hlenA : st.length ≤ ((st ++ [env]).set st.length env').length := by
              simp only [List.length_set, List.length_append, List.length_singleton]
              omega
            obtain ⟨hf, hv⟩ := ihC cs goal rest cur _ _ _ h (lt_of_lt_of_le hcur hlenA)
            exact ⟨storeInv_trans (storeInv_alloc st env env' cur) hf,
              solsInv_weaken hv hlenA⟩
          · rename_i env' tr' hun
            split at h
            · exact Option.noConfusion h
            · rename_i st2 sols1 hsB
              split at h
              · exact Option.noConfusion h
              · rename_i st3 sols2 hsC
                simp only [Option.some.injEq, Prod.mk.injEq] at h
                obtain ⟨rfl, rfl⟩ := h
                have hlixA : st.length < ((st ++ [env]).set st.length env').length := by
                  simp only [List.length_set, List.length_append, List.length_singleton]
                  omega
                have hlenA : st.length ≤ ((st ++ [env]).set st.length env').length :=
                  le_of_lt hlixA
                obtain ⟨hfB, hvB⟩ := ihS (c.body ++ rest) st.length _ tr' _ _ hsB hlixA
                obtain ⟨hfC, hvC⟩ :=
                  ihC cs goal rest cur st2 _ _ hsC
                    (lt_of_lt_of_le (lt_of_lt_of_le hcur hlenA) hfB.1)
                refine ⟨?_, solsInv_append ?_ ?_⟩
                · exact storeInv_trans
                    (storeInv_compose_inner (storeInv_alloc st env env' cur) hfB
                      (le_refl st.length)) hfC
                · exact solsInv_weaken
                    (solsInv_extend hvB hfC (lt_of_lt_of_le hcur hlenA)) hlenA
                · exact solsInv_weaken hvC (le_trans hlenA hfB.1)

/-- C9.  Every environment yielded as a solution by `_solve` is a copy
independent of the resolver's working state: it lives in a cell allocated
after the search started (so it is a distinct object from the live
environment `cur` being mutated), and its value in the final heap — after
all bindings added and removed by the continued search following the
yield — is exactly the snapshot it held when yielded. -/
theorem c9_solutions_are_independent_copies (oc : Bool) (kb : KnowledgeBase)
    (f : Nat) (goals : List Term) (cur : Nat) (st st' : Store) (tr : Trail)
    (sols : List (Nat × Env))
    (h : solveH coreRegistryH oc kb f goals cur st tr = some (st', sols))
    (hcur : cur < st.length) :
    ∀ p ∈ sols, cur < p.1 ∧ st.length ≤ p.1 ∧ p.1 < st'.length ∧
      st'[p.1]? = some p.2 :=
  fun p hp =>
    have h3 := ((solveH_frame oc kb f).1 goals cur st tr st' sols h hcur).2 p hp
    ⟨lt_of_lt_of_le hcur h3.1, h3.1, h3.2.1, h3.2.2⟩

/-- Witness for C9: the Scenario-A query `parent(bob, X)` against the
three `parent` facts.  The search yields `X = ann` at cell 2 and then goes
on to bind and yield `X = pat` in other cells; at the end cell 2 still
holds exactly `{X ↦ ann}`. -/
theorem c9_solutions_are_independent_copies_witness :
    (0 : Nat) < 2 ∧ (1 : Nat) ≤ 2 ∧ (2 : Nat) < 5 ∧
    ([⟨[]⟩, ⟨[(1, Term.atom "ann")]⟩, ⟨[(1, Term.atom "ann")]⟩,
      ⟨[(1, Term.atom "pat")]⟩, ⟨[(1, Term.atom "pat")]⟩] : Store)[2]? =
      some ⟨[(1, Term.atom "ann")]⟩ :=
  c9_solutions_are_independent_copies false
    (kbLoad [⟨"parent", [.atom "tom", .atom "bob"], []⟩,
             ⟨"parent", [.atom "bob", .atom "ann"], []⟩,
             ⟨"parent", [.atom "bob", .atom "pat"], []⟩])
    20 [.comp "parent" [.atom "bob", .var "X" 1]] 0 [⟨[]⟩]
    [⟨[]⟩, ⟨[(1, Term.atom "ann")]⟩, ⟨[(1, Term.atom "ann")]⟩,
     ⟨[(1, Term.atom "pat")]⟩, ⟨[(1, Term.atom "pat")]⟩] ⟨[]⟩
    [(2, ⟨[(1, Term.atom "ann")]⟩), (4, ⟨[(1, Term.atom "pat")]⟩)]
    rfl (by decide) (2, ⟨[(1, Term.atom "ann")]⟩) (List.mem_cons_self _ _)

end PrologCore
